import Mathlib

/-!
Verification of the station-routing program (`src/main.rs`).

The Rust program builds a directed weighted graph (`RouteMap`) from
(origin, destination, distance) edge triples and answers five kinds of
queries over it: `route_distance`, `circular_route`, `exact_stops`,
`shortest_route` and `routes_less_than`.

Embedding conventions:
* `Station` is `String` (the Rust code uses `String` keys; the regex layer
  that extracts the `(origin, destination, distance)` capture triples from
  the raw text is I/O glue and the graph is built from the triples, exactly
  as the loop body of `RouteMap::new` does).
* The `HashMap<String, HashMap<String, u32>>` is embedded as an
  insertion-ordered association list with unique keys; `insert` replaces
  the value of an existing key (last write wins), like `HashMap::insert`.
  Iteration order of a `HashMap` is unspecified; all proved results
  (counts, minima, option-ness) are independent of that order, and the
  embedding fixes insertion order.
* Rust `u32` arithmetic is embedded as `Nat` with wrapping (mod 2^32)
  addition (`u32add`), i.e. release-mode overflow semantics.
* A Rust panic (`unwrap` / `?`-free `expect` on a missing key) is embedded
  as `none` (resp. `.error .panicked`) at the outer level, distinct from a
  normal `Option` return of the Rust function.
* The two `while stops.len() > 0` loops (`shortest_route`,
  `routes_less_than`) are embedded with an explicit fuel parameter;
  `.error .fuelOut` means the loop did not finish within `fuel` rounds.
-/

namespace StationRouting

abbrev Station := String

/-- Adjacency of one station: `destination ↦ distance`, insertion order. -/
abbrev AdjList := List (Station × Nat)

/-- The graph `Stations = HashMap<String, HashMap<String, u32>>`. -/
abbrev Stations := List (Station × AdjList)

/-- `2^32`, the modulus of Rust `u32` arithmetic. -/
def U32M : Nat := 4294967296

/-- `u32::MAX`. -/
def UMAX : Nat := 4294967295

/-- Wrapping `u32` addition (`+=` on `u32` in release mode). -/
def u32add (a b : Nat) : Nat := (a + b) % U32M

/-- `graph.get(st)` on the outer map (first — and by construction only —
entry with the given key). -/
def lookupSt : Stations → Station → Option AdjList
  | [], _ => none
  | p :: g, st => if p.1 == st then some p.2 else lookupSt g st

/-- `station.get(d)` on an inner map. -/
def lookupA : AdjList → Station → Option Nat
  | [], _ => none
  | p :: al, d => if p.1 == d then some p.2 else lookupA al d

/-- Single-hop lookup: distance of the edge `o → d`, if present. -/
def lookupEdge (g : Stations) (o d : Station) : Option Nat :=
  (lookupSt g o).bind fun al => lookupA al d

/-- `graph.contains_key st` (equivalently: `st` has at least one outgoing
edge, since inner maps are never empty by construction). -/
def isKey (g : Stations) (st : Station) : Bool :=
  (lookupSt g st).isSome

/-- `HashMap::insert` on an inner map: replace the value of the key if
present (last write wins), otherwise add the key. -/
def insertAdj : AdjList → Station → Nat → AdjList
  | [], d, w => [(d, w)]
  | p :: al, d, w => if p.1 == d then (d, w) :: al else p :: insertAdj al d w

/-- One iteration of the `captures_iter` loop body of `RouteMap::new`:
ensure the origin key exists, then `station.insert(destination, distance)`. -/
def insertEdge : Stations → Station → Station → Nat → Stations
  | [], o, d, w => [(o, [(d, w)])]
  | p :: g, o, d, w =>
    if p.1 == o then (p.1, insertAdj p.2 d w) :: g
    else p :: insertEdge g o d w

/-- `RouteMap::new`: build the graph from the captured
`(origin, destination, distance)` triples, in input order. -/
def RouteMap.new (l : List (Station × Station × Nat)) : Stations :=
  l.foldl (fun g t => insertEdge g t.1 t.2.1 t.2.2) []

/-- The `Route` struct: accumulated distance and the ordered stop list. -/
structure Route where
  distance : Nat
  stops : List Station
  deriving Repr, DecidableEq

/-- `Route::current_station` (the Rust code `expect`s a non-empty stop
list; every route built by the traversals has one, and the embedding
returns `""` on the never-reached empty case). -/
def currentStation (r : Route) : Station := r.stops.getLastD ""

/-- The loop body of `route_distance`: walk the remaining stops carrying
the current station (`""` = the initial sentinel, meaning "no previous
stop, skip the lookup") and the accumulated `u32` distance. -/
def routeDistanceGo (g : Stations) : Station → Nat → List Station → Option Nat
  | _, dist, [] => some dist
  | cur, dist, stop :: rest =>
    if cur ≠ "" then
      (lookupSt g cur).bind fun al =>
        (lookupA al stop).bind fun w =>
          routeDistanceGo g stop (u32add dist w) rest
    else routeDistanceGo g stop dist rest

/-- `RouteMap::route_distance`. `none` is the Rust `None` ("NO SUCH
ROUTE"), produced by `?` the instant a consecutive pair has no edge. -/
def route_distance (g : Stations) (stops : List Station) : Option Nat :=
  routeDistanceGo g "" 0 stops

/-- `RouteMap::next_stops`. The Rust body `self.graph.get(...).unwrap()`
panics when the current station has no outgoing edges; the panic is
embedded as `none`. Otherwise one new route per outgoing edge, in
adjacency order, with wrapping distance accumulation. -/
def next_stops (g : Stations) (r : Route) : Option (List Route) :=
  (lookupSt g (currentStation r)).map fun al =>
    al.map fun p => { distance := u32add r.distance p.2, stops := r.stops ++ [p.1] }

/-- Spec-side expansion (§4.2 `Expand`) with exact (non-wrapping) distance
arithmetic and total behaviour; used to state what the traversals compute.
On a station with outgoing edges it produces exactly the routes of
`next_stops` (with true distances); on a dead end it produces `[]`. -/
def texpand (g : Stations) (r : Route) : List Route :=
  ((lookupSt g (currentStation r)).getD []).map fun p =>
    { distance := r.distance + p.2, stops := r.stops ++ [p.1] }

/-- Spec-side frontier of true-distance routes: `tF g s k` is the list of
all walks from `s` with exactly `k+1` hops (each as a `Route` whose
distance is the exact sum of its edge distances), in expansion order. -/
def tF (g : Stations) (s : Station) : Nat → List Route
  | 0 => texpand g { distance := 0, stops := [s] }
  | k + 1 => (tF g s k).flatMap (texpand g)

/-- One station's expansion inside `circular_route`: `graph.get(stop)?`,
then count the destinations equal to `start` and push all destinations.
`none` is the `?`-propagated "no such route" abort on a dead end. -/
def circExpand (g : Stations) (start st : Station) : Option (Nat × List Station) :=
  (lookupSt g st).map fun al =>
    (al.countP (fun p => p.1 == start), al.map (·.1))

/-- One round of `circular_route`: expand every frontier station in order,
concatenating destinations and summing the `count` increments; the first
dead-end station aborts the whole query (`?`). -/
def circRound (g : Stations) (start : Station) : List Station → Option (Nat × List Station)
  | [] => some (0, [])
  | st :: rest =>
    (circExpand g start st).bind fun cd =>
      (circRound g start rest).map fun cd2 =>
        (cd.1 + cd2.1, cd.2 ++ cd2.2)

/-- The `while stops_made < max_stops` loop of `circular_route`. -/
def circGo (g : Stations) (start : Station) : Nat → List Station → Nat → Option Nat
  | 0, _, count => some count
  | n + 1, frontier, count =>
    (circRound g start frontier).bind fun cd =>
      circGo g start n cd.2 (count + cd.1)

/-- `RouteMap::circular_route`: `n` rounds of bare-station breadth-first
expansion starting from `[start]`. -/
def circular_route (g : Stations) (start : Station) (n : Nat) : Option Nat :=
  circGo g start n [start] 0

/-- `next_stops` extended over a whole frontier (the
`next_stops.extend(self.next_stops(route))` loop of `exact_stops`):
propagates a panic of any single expansion. -/
def expandAll (g : Stations) : List Route → Option (List Route)
  | [] => some []
  | r :: rs =>
    (next_stops g r).bind fun ex =>
      (expandAll g rs).map fun rest => ex ++ rest

/-- The `while stops_made < target_stops` loop of `exact_stops`. -/
def esGo (g : Stations) : Nat → List Route → Option (List Route)
  | 0, frontier => some frontier
  | n + 1, frontier => (expandAll g frontier).bind (esGo g n)

/-- `RouteMap::exact_stops`. The Rust function always returns
`Some(count)` unless it panics; the panic is embedded as `none` and a
normal return as `some count`. Note the initial frontier is already
`next_stops` of the start route, i.e. the one-hop expansion. -/
def exact_stops (g : Stations) (start dest : Station) (n : Nat) : Option Nat :=
  (next_stops g { distance := 0, stops := [start] }).bind fun f0 =>
    (esGo g n f0).map fun frontier =>
      frontier.countP (fun r => currentStation r == dest)

/-- Abnormal outcomes of the two fuel-embedded `while` loops:
`panicked` = a Rust panic (`unwrap` on a dead end), `fuelOut` = the loop
did not finish within the given fuel. -/
inductive RunErr where
  | panicked
  | fuelOut
  deriving Repr, DecidableEq

/-- The `for route in stops` body of `shortest_route` over one frontier,
threading the running best distance and the `next_stops` accumulator:
prune at `distance ≥ best`, record a smaller completed distance at the
destination (not expanding it), otherwise expand. -/
def ssRound (g : Stations) (dest : Station) : List Route → Nat → List Route → Option (Nat × List Route)
  | [], best, acc => some (best, acc)
  | r :: rs, best, acc =>
    if r.distance < best then
      if currentStation r == dest then ssRound g dest rs r.distance acc
      else
        match next_stops g r with
        | none => none
        | some ex => ssRound g dest rs best (acc ++ ex)
    else ssRound g dest rs best acc

/-- The `while stops.len() > 0` loop of `shortest_route`, with fuel. -/
def ssLoop (g : Stations) (dest : Station) : Nat → List Route → Nat → Except RunErr Nat
  | _, [], best => .ok best
  | 0, _ :: _, _ => .error .fuelOut
  | fuel + 1, frontier@(_ :: _), best =>
    match ssRound g dest frontier best [] with
    | none => .error .panicked
    | some bn => ssLoop g dest fuel bn.2 bn.1

/-- `RouteMap::shortest_route`. `.ok none` is the Rust `None` ("NO SUCH
ROUTE", best stayed `u32::MAX`), `.ok (some d)` the Rust `Some(d)`. -/
def shortest_route (g : Stations) (start dest : Station) (fuel : Nat) : Except RunErr (Option Nat) :=
  match next_stops g { distance := 0, stops := [start] } with
  | none => .error .panicked
  | some f0 =>
    (ssLoop g dest fuel f0 UMAX).map fun best =>
      if best = UMAX then none else some best

/-- The `for route in stops` body of `routes_less_than` over one frontier:
a route with `distance < max_distance` increments the count when at the
destination and is always expanded (matches are not terminal); a route at
or above the ceiling is discarded without expansion. -/
def rltRound (g : Stations) (dest : Station) (maxD : Nat) : List Route → Nat → List Route → Option (Nat × List Route)
  | [], count, acc => some (count, acc)
  | r :: rs, count, acc =>
    if r.distance < maxD then
      match next_stops g r with
      | none => none
      | some ex =>
        rltRound g dest maxD rs (if currentStation r == dest then count + 1 else count) (acc ++ ex)
    else rltRound g dest maxD rs count acc

/-- The `while stops.len() > 0` loop of `routes_less_than`, with fuel. -/
def rltLoop (g : Stations) (dest : Station) (maxD : Nat) : Nat → List Route → Nat → Except RunErr Nat
  | _, [], count => .ok count
  | 0, _ :: _, _ => .error .fuelOut
  | fuel + 1, frontier@(_ :: _), count =>
    match rltRound g dest maxD frontier count [] with
    | none => .error .panicked
    | some cn => rltLoop g dest maxD fuel cn.2 cn.1

/-- `RouteMap::routes_less_than`. The Rust function always returns
`Some(count)` unless it panics; `.ok count` is that normal return. -/
def routes_less_than (g : Stations) (start dest : Station) (maxD : Nat) (fuel : Nat) : Except RunErr Nat :=
  match next_stops g { distance := 0, stops := [start] } with
  | none => .error .panicked
  | some f0 => rltLoop g dest maxD fuel f0 0

/-- The frontier sequence of `routes_less_than`: `rltFrontiers … k` is the
frontier at the start of round `k` (`none` once a panic has occurred). -/
def rltFrontiers (g : Stations) (start dest : Station) (maxD : Nat) : Nat → Option (List Route)
  | 0 => next_stops g { distance := 0, stops := [start] }
  | k + 1 =>
    (rltFrontiers g start dest maxD k).bind fun frontier =>
      (rltRound g dest maxD frontier 0 []).map (·.2)

/-- The `Command` enum. -/
inductive Command where
  | ABCDistance
  | ADDistance
  | ADCDistance
  | AEBCDDistance
  | AEDDistance
  | CCircular
  | ACFourStop
  | ACExpress
  | BCircle
  | CLessThanCircular
  deriving Repr, DecidableEq

/-- The fixed ordered battery `COMMANDS`. -/
def COMMANDS : List Command :=
  [.ABCDistance, .ADDistance, .ADCDistance, .AEBCDDistance, .AEDDistance,
   .CCircular, .ACFourStop, .ACExpress, .BCircle, .CLessThanCircular]

/-- The `Some(num) => num.to_string() / None => "NO SUCH ROUTE"` match of
`eval_cmd`. -/
def fmtResult : Option Nat → String
  | some n => toString n
  | none => "NO SUCH ROUTE"

/-- `RouteMap::eval_cmd`: dispatch one hardcoded query and format its
result. `fuel` feeds the two loop-based queries; `.error` marks a panic
or exhausted fuel (the Rust function itself returns the plain string). -/
def eval_cmd (g : Stations) (fuel : Nat) : Command → Except RunErr String
  | .ABCDistance => .ok (fmtResult (route_distance g ["A", "B", "C"]))
  | .ADDistance => .ok (fmtResult (route_distance g ["A", "D"]))
  | .ADCDistance => .ok (fmtResult (route_distance g ["A", "D", "C"]))
  | .AEBCDDistance => .ok (fmtResult (route_distance g ["A", "E", "B", "C", "D"]))
  | .AEDDistance => .ok (fmtResult (route_distance g ["A", "E", "D"]))
  | .CCircular => .ok (fmtResult (circular_route g "C" 3))
  | .ACFourStop =>
    match exact_stops g "A" "B" 4 with
    | none => .error .panicked
    | some c => .ok (fmtResult (some c))
  | .ACExpress => (shortest_route g "A" "C" fuel).map fmtResult
  | .BCircle => (shortest_route g "B" "B" fuel).map fmtResult
  | .CLessThanCircular => (routes_less_than g "C" "C" 30 fuel).map (fun c => fmtResult (some c))

/-! Spec-side definitions, written from the specification's words, used to
state what the implementation functions compute. -/

/-- The exact accumulated distance of a fixed stop sequence (spec §4.3):
sum of the single-hop lookups over consecutive pairs, `none` the instant a
pair has no edge, `some 0` for a single station. Exact `Nat` arithmetic
(no `u32` wrap). -/
def trueSum (g : Stations) : List Station → Option Nat
  | [] => some 0
  | [_] => some 0
  | a :: b :: rest =>
    (lookupEdge g a b).bind fun w => (trueSum g (b :: rest)).map fun d => w + d

/-- The distance of the last occurrence of the pair `(o, d)` in the input
triple list, `none` if the pair never occurs (spec §3: last write wins). -/
def lastWrite (l : List (Station × Station × Nat)) (o d : Station) : Option Nat :=
  l.foldl (fun acc t => if t.1 == o && t.2.1 == d then some t.2.2 else acc) none

/-- One spec-side round of bare-station breadth-first expansion: every
frontier station is replaced by all of its direct destinations (a dead-end
station contributes nothing). -/
def sStep (g : Stations) (l : List Station) : List Station :=
  l.flatMap fun st => ((lookupSt g st).getD []).map (·.1)

/-- `k` spec-side rounds of bare-station expansion. -/
def sIter (g : Stations) : Nat → List Station → List Station
  | 0, l => l
  | k + 1, l => sIter g k (sStep g l)

/-- Spec-side count for `circular_route` (spec §4.4): the total number of
expanded destinations equal to `start` across `n` rounds, i.e. the number
of walks of length `1..n` from `start` back to `start`. -/
def specCircCount (g : Stations) (start : Station) (n : Nat) : Nat :=
  ((List.range n).map fun k => (sIter g (k + 1) [start]).countP (· == start)).sum

/-- Every station expanded by `circular_route` within `n` rounds has
outgoing edges: no dead end anywhere in the breadth-first fan-out. -/
def circAlive (g : Stations) (start : Station) (n : Nat) : Bool :=
  (List.range n).all fun k => (sIter g k [start]).all (isKey g)

/-- The number of walks of exactly `n` hops from `start` that end at
`dest` (spec §4.5's count: `n` rounds of `Expand` from the singleton
frontier, then count the routes at `dest`). -/
def specHopCount (g : Stations) (start dest : Station) (n : Nat) : Nat :=
  (sIter g n [start]).countP (· == dest)

/-- The current stations of a route frontier. -/
def stationsOf (fr : List Route) : List Station :=
  fr.map currentStation

/-- The largest edge distance in the graph (`0` for an empty graph). -/
def maxW (g : Stations) : Nat :=
  (g.flatMap fun p => p.2.map (·.2)).foldl max 0

/-- All edge distances are strictly positive. -/
def posW (g : Stations) : Bool :=
  g.all fun p => p.2.all fun q => decide (0 < q.2)

/-- Every edge destination is itself a key of the graph: the expansion
primitive can never hit a dead end (`next_stops` never panics). -/
def closedG (g : Stations) : Bool :=
  g.all fun p => p.2.all fun q => isKey g q.1

/-- The number of walks of at least one hop from `start` to `dest` whose
exact accumulated distance is strictly below `c` (spec §4.7). Walks are
enumerated by hop count; with strictly positive edge distances a walk of
`k+1` hops has distance at least `k+1`, so every walk of distance `< c`
appears within the first `c` hop levels and the range is exhaustive. -/
def NwalksBelow (g : Stations) (start dest : Station) (c : Nat) : Nat :=
  ((List.range c).map fun k =>
    ((tF g start k).filter fun r =>
      currentStation r == dest && decide (r.distance < c)).length).sum

/-- The spec-side frontier of `routes_less_than`: like `tF` but each round
only the routes with distance strictly below the ceiling `c` are expanded
(the others are discarded), mirroring §4.7's pruning. `qF g s c k` is the
frontier at the start of round `k`. -/
def qF (g : Stations) (s : Station) (c : Nat) : Nat → List Route
  | 0 => texpand g { distance := 0, stops := [s] }
  | k + 1 => ((qF g s c k).filter fun r => decide (r.distance < c)).flatMap (texpand g)

/-- `m`-fold total expansion of a route frontier. -/
def texpandIter (g : Stations) : Nat → List Route → List Route
  | 0, l => l
  | m + 1, l => texpandIter g m (l.flatMap (texpand g))

/-- The number of qualifying destination hits counted in round `k` of
`routes_less_than`: routes of the round-`k` frontier below the ceiling
whose current station is `dest`. -/
def rltCnt (g : Stations) (s dest : Station) (c k : Nat) : Nat :=
  ((qF g s c k).filter fun r => decide (r.distance < c)).countP
    fun r => currentStation r == dest

/-- The total count still to be accumulated by `routes_less_than` from
round `j` on (the rounds `j, j+1, …, c`). -/
def rltRest (g : Stations) (s dest : Station) (c j : Nat) : Nat :=
  ((List.range (c + 1 - j)).map fun i => rltCnt g s dest c (j + i)).sum

/-- `Leads g t ρ m`: route `t` is reachable from route `ρ` by exactly `m`
single-edge expansions. -/
inductive Leads (g : Stations) (t : Route) : Route → Nat → Prop where
  | zero : Leads g t t 0
  | succ {ρ ρ2 : Route} {m : Nat} :
      ρ2 ∈ texpand g ρ → Leads g t ρ2 m → Leads g t ρ (m + 1)

/-- Does some walk of exactly `k+1` hops from `s` end at `dest` with exact
distance `opt`? Used to pick the minimal hop count of a shortest walk. -/
def hitOpt (g : Stations) (s dest : Station) (opt k : Nat) : Bool :=
  (tF g s k).any fun r => currentStation r == dest && decide (r.distance = opt)

/-! Concrete graphs used by witnesses and counterexamples. -/

/-- A single edge `A→B` of distance 1: `B` is a dead end. -/
def gAB1 : Stations := RouteMap.new [("A", "B", 1)]

/-- The two-cycle `A→B→A` with unit distances. -/
def gABBA1 : Stations := RouteMap.new [("A", "B", 1), ("B", "A", 1)]

/-- The two-cycle `A→B→A` with distance 2 on both edges. -/
def gABBA2 : Stations := RouteMap.new [("A", "B", 2), ("B", "A", 2)]

/-- A zero-distance two-cycle plus an edge `A→C` of distance 5. -/
def gZero : Stations := RouteMap.new [("A", "B", 0), ("B", "A", 0), ("A", "C", 5)]

/-- Two edges whose distances sum to `6000000000 ≥ 2^32` (u32 overflow). -/
def gBig : Stations := RouteMap.new [("A", "B", 3000000000), ("B", "C", 3000000000)]

/-- The graph of the Rust test `check_distance`. -/
def gDist : Stations := RouteMap.new [("A", "B", 2), ("B", "C", 3)]

/-- The graph of the Rust test `check_circular`. -/
def gCirc : Stations :=
  RouteMap.new [("C", "D", 3), ("D", "E", 3), ("E", "C", 3), ("E", "B", 4), ("B", "C", 4)]

/-- The graph of the Rust test `check_exact_stops`. -/
def gExact : Stations :=
  RouteMap.new [("A", "B", 3), ("A", "C", 2), ("B", "C", 3), ("B", "A", 2), ("C", "A", 7)]

/-- The graph of the Rust test `check_routes_less_than`. -/
def gLess : Stations :=
  RouteMap.new
    [("A", "B", 1), ("B", "C", 1), ("B", "A", 2), ("C", "A", 3), ("C", "D", 5), ("D", "A", 5)]

/-- The graph of the Rust test `check_all_commands` (the end-to-end
battery input `AB5, BC4, CD8, DC8, DE6, AD5, CE2, EB3, AE7`). -/
def G7 : Stations :=
  RouteMap.new
    [("A", "B", 5), ("B", "C", 4), ("C", "D", 8), ("D", "C", 8), ("D", "E", 6),
     ("A", "D", 5), ("C", "E", 2), ("E", "B", 3), ("A", "E", 7)]

/-- The ten expected battery result strings. -/
def expectedOutputs : List String :=
  ["9", "5", "13", "22", "NO SUCH ROUTE", "2", "3", "9", "9", "7"]

/-! ### Basic lemmas about the association-list maps -/

theorem lookupA_insertAdj_self (al : AdjList) (d : Station) (w : Nat) :
    lookupA (insertAdj al d w) d = some w := by
  induction al with
  | nil => simp [insertAdj, lookupA]
  | cons p al ih =>
    by_cases h : p.1 = d
    · simp [insertAdj, lookupA, h]
    · simp [insertAdj, lookupA, h, ih]

theorem lookupA_insertAdj_ne (al : AdjList) {d d2 : Station} (w : Nat) (h : d2 ≠ d) :
    lookupA (insertAdj al d w) d2 = lookupA al d2 := by
  induction al with
  | nil => simp [insertAdj, lookupA, Ne.symm h]
  | cons p al ih =>
    by_cases hp : p.1 = d
    · simp [insertAdj, lookupA, hp, Ne.symm h]
    · by_cases hp2 : p.1 = d2
      · simp [insertAdj, lookupA, hp, hp2, h]
      · simp [insertAdj, lookupA, hp, hp2, ih]

theorem lookupSt_insertEdge_self (g : Stations) (o b : Station) (w : Nat) :
    lookupSt (insertEdge g o b w) o = some (insertAdj ((lookupSt g o).getD []) b w) := by
  induction g with
  | nil => simp [insertEdge, lookupSt, insertAdj]
  | cons p g ih =>
    by_cases h : p.1 = o
    · simp [insertEdge, lookupSt, h]
    · simp [insertEdge, lookupSt, h, ih]

theorem lookupSt_insertEdge_ne (g : Stations) {a o : Station} (b : Station) (w : Nat)
    (h : a ≠ o) : lookupSt (insertEdge g a b w) o = lookupSt g o := by
  induction g with
  | nil => simp [insertEdge, lookupSt, h]
  | cons p g ih =>
    by_cases hp : p.1 = a
    · simp [insertEdge, lookupSt, hp, h]
    · by_cases hp2 : p.1 = o
      · simp [insertEdge, lookupSt, hp, hp2, Ne.symm h]
      · simp [insertEdge, lookupSt, hp, hp2, ih]

theorem lookupEdge_insertEdge (g : Stations) (a b o d : Station) (w : Nat) :
    lookupEdge (insertEdge g a b w) o d =
      if a = o ∧ b = d then some w else lookupEdge g o d := by
  by_cases ha : a = o
  · subst ha
    rw [lookupEdge, lookupSt_insertEdge_self]
    by_cases hb : b = d
    · subst hb
      simp [lookupA_insertAdj_self]
    · rw [if_neg (by simp [hb])]
      cases h : lookupSt g a with
      | none => simp [lookupEdge, h, lookupA_insertAdj_ne _ w (Ne.symm hb), lookupA, hb]
      | some al => simp [lookupEdge, h, lookupA_insertAdj_ne _ w (Ne.symm hb), hb]
  · rw [if_neg (by simp [ha])]
    rw [lookupEdge, lookupEdge, lookupSt_insertEdge_ne g b w ha]

theorem lookupEdge_foldl_insert (o d : Station) :
    ∀ (l : List (Station × Station × Nat)) (g : Stations),
      lookupEdge (l.foldl (fun g t => insertEdge g t.1 t.2.1 t.2.2) g) o d =
        l.foldl (fun acc t => if t.1 == o && t.2.1 == d then some t.2.2 else acc)
          (lookupEdge g o d)
  | [], _ => rfl
  | t :: l, g => by
    rw [List.foldl_cons, List.foldl_cons, lookupEdge_foldl_insert o d l,
      lookupEdge_insertEdge]
    by_cases h1 : t.1 = o
    · by_cases h2 : t.2.1 = d
      · simp [h1, h2]
      · simp [h1, h2]
    · simp [h1]

/-! ### C9: graph construction, last write wins -/

/-- C9: for every input triple list, graph construction succeeds (it is a
total function) and the constructed graph maps each (origin, destination)
pair to the distance of its last occurrence in input order; pairs that
never occur are absent. In particular distinct destinations from the same
origin are all retained (each is its own pair with its own last write). -/
theorem routemap_new_last_write_wins (l : List (Station × Station × Nat)) (o d : Station) :
    lookupEdge (RouteMap.new l) o d = lastWrite l o d :=
  lookupEdge_foldl_insert o d l []

/-! ### C10: `route_distance` on the empty stop sequence -/

/-- C10: for every graph, `route_distance` on the empty stop sequence
performs no lookups (the loop body never runs) and returns `Some(0)`,
exactly like a single-station sequence. -/
theorem route_distance_empty (g : Stations) : route_distance g [] = some 0 := rfl

/-! ### C2: the expansion primitive on a dead end -/

/-- C2 (amended): for every route whose current station has no outgoing
edges (equivalently, is not a key of the graph), `next_stops` panics — the
Rust `self.graph.get(...).unwrap()` unwraps `None` — rather than producing
an empty sequence; consequently `exact_stops`, `shortest_route` and
`routes_less_than` abort when they expand a dead-end route instead of
silently dropping it. -/
theorem next_stops_dead_end_panics (g : Stations) (r : Route)
    (h : lookupSt g (currentStation r) = none) : next_stops g r = none := by
  simp [next_stops, h]

theorem next_stops_dead_end_panics_witness :
    lookupSt gAB1 (currentStation { distance := 1, stops := ["A", "B"] }) = none ∧
      next_stops gAB1 { distance := 1, stops := ["A", "B"] } = none :=
  ⟨by decide, next_stops_dead_end_panics gAB1 { distance := 1, stops := ["A", "B"] } (by decide)⟩

/-- C2 counterexample: on the graph with single edge `A→B1`, the route
that has reached the dead end `B` is not expanded to the empty sequence —
`next_stops` signals an error (panics) — and `exact_stops` on that graph
aborts instead of silently dropping the dead-end route and returning a
count. -/
theorem next_stops_dead_end_cex :
    next_stops gAB1 { distance := 1, stops := ["A", "B"] } ≠ some [] ∧
      exact_stops gAB1 "A" "B" 1 = none := by
  constructor
  · decide
  · decide

/-! ### C6: `route_distance` -/

theorem routeDistanceGo_spec (g : Stations) :
    ∀ (rest : List Station) (cur : Station) (dist : Nat),
      cur ≠ "" → (∀ st ∈ rest, st ≠ "") → dist < U32M →
      routeDistanceGo g cur dist rest =
        (trueSum g (cur :: rest)).map fun d => (dist + d) % U32M
  | [], cur, dist, _, _, hdist => by
    simp [routeDistanceGo, trueSum, Nat.mod_eq_of_lt hdist]
  | stop :: rest, cur, dist, hcur, hrest, hdist => by
    have hstop : stop ≠ "" := hrest stop (by simp)
    have hrest2 : ∀ st ∈ rest, st ≠ "" := fun st hst => hrest st (by simp [hst])
    rw [routeDistanceGo, if_pos hcur]
    show ((lookupSt g cur).bind fun al => (lookupA al stop).bind fun w =>
        routeDistanceGo g stop (u32add dist w) rest) = _
    unfold trueSum
    rw [lookupEdge]
    cases hSt : lookupSt g cur with
    | none => simp
    | some al =>
      simp only [Option.some_bind]
      cases hA : lookupA al stop with
      | none => simp [hA]
      | some w =>
        simp only [Option.some_bind]
        rw [routeDistanceGo_spec g rest stop (u32add dist w) hstop hrest2
          (Nat.mod_lt _ (by norm_num [U32M]))]
        cases trueSum g (stop :: rest) with
        | none => rfl
        | some d =>
          show some ((u32add dist w + d) % U32M) = some ((dist + (w + d)) % U32M)
          rw [u32add, Nat.mod_add_mod, Nat.add_assoc]

/-- C6 (amended): for every graph and every stop sequence whose stations
are all non-empty strings, `route_distance` returns the sum of the
single-hop lookup distances over consecutive pairs reduced modulo `2^32`
(`u32` wrapping addition; equal to the exact sum whenever that sum is
below `2^32`) when every consecutive pair has an edge, and `None` the
instant any consecutive pair has no edge (short-circuit); a single-station
sequence — and the empty sequence — yields `Some(0)`. The two restrictions
the original claim lacks: the accumulated sum wraps at `2^32`, and a stop
named by the empty string collides with the implementation's internal
"before the first stop" sentinel and makes the pair around it skip its
lookup. -/
theorem route_distance_spec (g : Stations) (stops : List Station)
    (h : ∀ st ∈ stops, st ≠ "") :
    route_distance g stops = (trueSum g stops).map fun d => d % U32M := by
  cases stops with
  | nil => rfl
  | cons a rest =>
    have ha : a ≠ "" := h a (by simp)
    have h2 : ∀ st ∈ rest, st ≠ "" := fun st hst => h st (by simp [hst])
    show routeDistanceGo g "" 0 (a :: rest) = _
    rw [routeDistanceGo, if_neg (by simp),
      routeDistanceGo_spec g rest a 0 ha h2 (by norm_num [U32M])]
    cases trueSum g (a :: rest) with
    | none => rfl
    | some d => simp

theorem route_distance_spec_witness :
    route_distance gDist ["A", "B", "C"] = (trueSum gDist ["A", "B", "C"]).map (fun d => d % U32M) ∧
      trueSum gDist ["A", "B", "C"] = some 5 ∧ route_distance gDist ["A", "B", "C"] = some 5 :=
  ⟨route_distance_spec gDist ["A", "B", "C"] (by decide), by decide, by decide⟩

/-- C6 counterexample: (1) on two edges of distance `3000000000` the code
returns the `u32`-wrapped value `1705032704`, not the exact sum
`6000000000` the claim requires; (2) with the empty-string station the
claim requires `None` for the sequence `["", "A"]` (the pair `("", "A")`
has no edge), but the code skips the pair — the empty string is its
internal sentinel — and returns `Some(0)`. -/
theorem route_distance_cex :
    (route_distance gBig ["A", "B", "C"] = some 1705032704 ∧
      trueSum gBig ["A", "B", "C"] = some 6000000000) ∧
      (lookupEdge gBig "" "A" = none ∧ route_distance gBig ["", "A"] = some 0) := by
  refine ⟨⟨?_, ?_⟩, ?_, ?_⟩ <;> decide

/-! ### C3: `circular_route` -/

theorem circRound_alive (g : Stations) (start : Station) :
    ∀ frontier : List Station, (∀ st ∈ frontier, isKey g st) →
      circRound g start frontier =
        some ((sStep g frontier).countP (· == start), sStep g frontier)
  | [], _ => by simp [circRound, sStep]
  | st :: rest, h => by
    have hst : isKey g st := h st (by simp)
    obtain ⟨al, hal⟩ : ∃ al, lookupSt g st = some al :=
      Option.isSome_iff_exists.mp hst
    have ih := circRound_alive g start rest (fun st2 hst2 => h st2 (by simp [hst2]))
    rw [circRound, circExpand, hal]
    simp only [Option.map_some, Option.some_bind, ih, Option.map_some]
    have hstep : sStep g (st :: rest) = al.map (·.1) ++ sStep g rest := by
      simp [sStep, hal]
    rw [hstep, List.countP_append, List.countP_map]
    rfl

theorem circRound_dead (g : Stations) (start : Station) :
    ∀ frontier : List Station, (∃ st ∈ frontier, ¬isKey g st) →
      circRound g start frontier = none
  | st :: rest, h => by
    by_cases hst : isKey g st
    · obtain ⟨st2, hst2, hdead⟩ := h
      rcases List.mem_cons.mp hst2 with rfl | hmem
      · exact absurd hst hdead
      · obtain ⟨al, hal⟩ : ∃ al, lookupSt g st = some al :=
          Option.isSome_iff_exists.mp hst
        rw [circRound, circExpand, hal, circRound_dead g start rest ⟨st2, hmem, hdead⟩]
        rfl
    · have : lookupSt g st = none := by
        cases hl : lookupSt g st with
        | none => rfl
        | some al => exact absurd (by simp [isKey, hl]) hst
      rw [circRound, circExpand, this]
      rfl

theorem circGo_alive (g : Stations) (start : Station) :
    ∀ (n : Nat) (frontier : List Station) (count : Nat),
      (∀ k < n, ∀ st ∈ sIter g k frontier, isKey g st) →
      circGo g start n frontier count =
        some (count +
          ((List.range n).map fun k => (sIter g (k + 1) frontier).countP (· == start)).sum)
  | 0, frontier, count, _ => by simp [circGo]
  | n + 1, frontier, count, h => by
    have h0 : ∀ st ∈ frontier, isKey g st := fun st hst =>
      h 0 (Nat.succ_pos n) st hst
    rw [circGo, circRound_alive g start frontier h0]
    simp only [Option.some_bind]
    rw [circGo_alive g start n (sStep g frontier) (count + (sStep g frontier).countP (· == start))
      (fun k hk st hst => h (k + 1) (Nat.succ_lt_succ hk) st hst)]
    rw [List.range_succ_eq_map, List.map_cons, List.map_map, List.sum_cons,
      ← Nat.add_assoc]
    rfl

theorem circGo_dead (g : Stations) (start : Station) :
    ∀ (n : Nat) (frontier : List Station) (count : Nat),
      ¬(∀ k < n, ∀ st ∈ sIter g k frontier, isKey g st) →
      circGo g start n frontier count = none
  | 0, _, _, h => absurd (fun k hk => absurd hk (Nat.not_lt_zero k)) h
  | n + 1, frontier, count, h => by
    by_cases h0 : ∀ st ∈ frontier, isKey g st
    · rw [circGo, circRound_alive g start frontier h0]
      simp only [Option.some_bind]
      refine circGo_dead g start n (sStep g frontier) _ fun hall => h ?_
      intro k hk st hst
      cases k with
      | zero => exact h0 st hst
      | succ k => exact hall k (Nat.lt_of_succ_lt_succ hk) st hst
    · push_neg at h0
      obtain ⟨st, hst, hdead⟩ := h0
      rw [circGo, circRound_dead g start frontier ⟨st, hst, hdead⟩]
      rfl

theorem circAlive_iff (g : Stations) (start : Station) (n : Nat) :
    circAlive g start n = true ↔ ∀ k < n, ∀ st ∈ sIter g k [start], isKey g st := by
  simp [circAlive, List.all_eq_true, List.mem_range]

/-- C3: `circular_route g start n` performs exactly `n` rounds of
breadth-first expansion over bare station identifiers starting from the
frontier `[start]`, incrementing a counter once for each expanded
destination equal to `start` across all `n` rounds. If every station
expanded in those rounds has outgoing edges, it returns `Some` of that
counter (`specCircCount`, the number of walks of length `1..n` from
`start` back to `start`); if any frontier station within the `n` rounds is
a dead end, the `?`-style lookup aborts the whole count and the query
returns `None` — never a partial count. -/
theorem circular_route_correct (g : Stations) (start : Station) (n : Nat) :
    (circAlive g start n = true → circular_route g start n = some (specCircCount g start n)) ∧
      (circAlive g start n = false → circular_route g start n = none) := by
  constructor
  · intro h
    rw [circular_route, circGo_alive g start n [start] 0 ((circAlive_iff g start n).mp h)]
    rw [Nat.zero_add]
    rfl
  · intro h
    refine circGo_dead g start n [start] 0 fun hall => ?_
    rw [(circAlive_iff g start n).mpr hall] at h
    exact absurd h (by simp)

theorem circular_route_correct_witness :
    circAlive gCirc "C" 4 = true ∧
      circular_route gCirc "C" 4 = some (specCircCount gCirc "C" 4) ∧
      specCircCount gCirc "C" 4 = 2 ∧ circAlive gAB1 "A" 2 = false ∧
      circular_route gAB1 "A" 2 = none :=
  ⟨by decide, (circular_route_correct gCirc "C" 4).1 (by decide), by decide, by decide,
    (circular_route_correct gAB1 "A" 2).2 (by decide)⟩

/-! ### C1: `exact_stops` -/

theorem getLastD_append_single (l : List Station) (a : Station) :
    ∀ d, (l ++ [a]).getLastD d = a := by
  induction l with
  | nil => intro d; rfl
  | cons b l ih => intro d; rw [List.cons_append, List.getLastD_cons, ih]

theorem lookupSt_mem (g : Stations) (st : Station) (al : AdjList) :
    lookupSt g st = some al → (st, al) ∈ g := by
  induction g with
  | nil => intro h; simp [lookupSt] at h
  | cons p g ih =>
    intro h
    rw [lookupSt] at h
    by_cases hp : p.1 = st
    · rw [if_pos (by simp [hp])] at h
      have hal : p.2 = al := Option.some.inj h
      have hpst : p = (st, al) := by
        cases p
        simp_all
      rw [hpst]
      exact List.mem_cons_self _ _
    · rw [if_neg (by simp [hp])] at h
      exact List.mem_cons_of_mem p (ih h)

theorem closedG_iff (g : Stations) :
    closedG g = true ↔ ∀ p ∈ g, ∀ q ∈ p.2, isKey g q.1 := by
  simp [closedG, List.all_eq_true]

theorem posW_iff (g : Stations) :
    posW g = true ↔ ∀ p ∈ g, ∀ q ∈ p.2, 0 < q.2 := by
  simp [posW, List.all_eq_true]

theorem sStep_keys (g : Stations) (hc : closedG g = true) (l : List Station) :
    ∀ st ∈ sStep g l, isKey g st := by
  intro st hst
  rw [sStep] at hst
  obtain ⟨st0, _, hmem⟩ := List.mem_flatMap.mp hst
  cases hl : lookupSt g st0 with
  | none => rw [hl] at hmem; simp at hmem
  | some al =>
    rw [hl] at hmem
    simp only [Option.getD_some] at hmem
    obtain ⟨q, hq, hq1⟩ := List.mem_map.mp hmem
    rw [← hq1]
    exact (closedG_iff g).mp hc _ (lookupSt_mem g st0 al hl) q hq

theorem next_stops_alive (g : Stations) (r : Route) (al : AdjList)
    (h : lookupSt g (currentStation r) = some al) :
    next_stops g r =
      some (al.map fun p => { distance := u32add r.distance p.2, stops := r.stops ++ [p.1] }) := by
  simp [next_stops, h]

theorem stationsOf_next (al : AdjList) (r : Route) :
    stationsOf
        (al.map fun p => { distance := u32add r.distance p.2, stops := r.stops ++ [p.1] }) =
      al.map (·.1) := by
  rw [stationsOf, List.map_map]
  refine List.map_congr_left fun p _ => ?_
  exact getLastD_append_single r.stops p.1 ""

theorem expandAll_stations (g : Stations) :
    ∀ fr : List Route, (∀ r ∈ fr, isKey g (currentStation r)) →
      ∃ fr2, expandAll g fr = some fr2 ∧ stationsOf fr2 = sStep g (stationsOf fr)
  | [], _ => ⟨[], rfl, by simp [stationsOf, sStep]⟩
  | r :: rs, h => by
    obtain ⟨al, hal⟩ := Option.isSome_iff_exists.mp (h r (by simp))
    obtain ⟨fr2, hfr2, hst⟩ := expandAll_stations g rs (fun r2 hr2 => h r2 (by simp [hr2]))
    refine ⟨(al.map fun p =>
      { distance := u32add r.distance p.2, stops := r.stops ++ [p.1] }) ++ fr2, ?_, ?_⟩
    · rw [expandAll, next_stops_alive g r al hal, hfr2]
      rfl
    · show stationsOf (_ ++ fr2) = _
      rw [stationsOf, List.map_append]
      show stationsOf _ ++ stationsOf fr2 = _
      rw [stationsOf_next, hst]
      show _ = sStep g (currentStation r :: stationsOf rs)
      simp [sStep, hal]

theorem esGo_stations (g : Stations) (hc : closedG g = true) :
    ∀ (n : Nat) (fr : List Route), (∀ r ∈ fr, isKey g (currentStation r)) →
      ∃ fr2, esGo g n fr = some fr2 ∧ stationsOf fr2 = sIter g n (stationsOf fr)
  | 0, fr, _ => ⟨fr, rfl, rfl⟩
  | n + 1, fr, h => by
    obtain ⟨fr1, hfr1, hst1⟩ := expandAll_stations g fr h
    have h1 : ∀ r ∈ fr1, isKey g (currentStation r) := by
      intro r hr
      have hmem : currentStation r ∈ stationsOf fr1 := List.mem_map_of_mem _ hr
      rw [hst1] at hmem
      exact sStep_keys g hc _ _ hmem
    obtain ⟨fr2, hfr2, hst2⟩ := esGo_stations g hc n fr1 h1
    refine ⟨fr2, ?_, ?_⟩
    · rw [esGo, hfr1]
      exact hfr2
    · rw [hst2, hst1]
      rfl

/-- C1 (amended): `exact_stops g s d n` starts from the frontier that is
already the one-hop expansion of `PartialRoute(s)` and then performs `n`
further rounds of `Expand`, i.e. `n + 1` rounds in total — one more than
the claim states — and returns the number of surviving routes whose
current station is `d`: the number of walks of exactly `n + 1` hops from
`s` to `d`. (Hypotheses: every edge destination has outgoing edges and `s`
is a key, otherwise the expansion `unwrap` panics instead of silently
dropping dead ends.) -/
theorem exact_stops_correct (g : Stations) (s d : Station) (n : Nat)
    (hc : closedG g = true) (hs : isKey g s = true) :
    exact_stops g s d n = some (specHopCount g s d (n + 1)) := by
  obtain ⟨al, hal⟩ := Option.isSome_iff_exists.mp hs
  have hal2 : lookupSt g (currentStation { distance := 0, stops := [s] }) = some al := hal
  rw [exact_stops, next_stops_alive g _ al hal2]
  simp only [Option.some_bind]
  have hf0 :
      stationsOf (al.map fun p =>
        { distance := u32add 0 p.2, stops := [s] ++ [p.1] }) = sStep g [s] := by
    rw [stationsOf_next al { distance := 0, stops := [s] }]
    simp [sStep, hal]
  have h0 : ∀ r ∈ (al.map fun p =>
      { distance := u32add 0 p.2, stops := [s] ++ [p.1] }), isKey g (currentStation r) := by
    intro r hr
    have hmem : currentStation r ∈ sStep g [s] := by
      rw [← hf0]
      exact List.mem_map_of_mem _ hr
    exact sStep_keys g hc _ _ hmem
  obtain ⟨fr2, hfr2, hst⟩ := esGo_stations g hc n _ h0
  rw [hfr2]
  show some (fr2.countP fun r => currentStation r == d) = some _
  congr 1
  rw [specHopCount]
  have hiter : sIter g (n + 1) [s] = sIter g n (sStep g [s]) := rfl
  rw [hiter, ← hf0, ← hst, stationsOf, List.countP_map]
  rfl

theorem exact_stops_correct_witness :
    closedG gExact = true ∧ isKey gExact "A" = true ∧
      exact_stops gExact "A" "B" 2 = some (specHopCount gExact "A" "B" 3) ∧
      specHopCount gExact "A" "B" 3 = 2 ∧ exact_stops gExact "A" "B" 2 = some 2 :=
  ⟨by decide, by decide, exact_stops_correct gExact "A" "B" 2 (by decide) (by decide),
    by decide, by decide⟩

/-- C1 counterexample: on the two-cycle `A→B→A` (unit distances) the
claim's reading — frontier `{PartialRoute(A)}`, exactly 1 round of
`Expand`, then count routes at `B` — yields `specHopCount _ _ _ 1 = 1`
(the walk `A→B`), but `exact_stops gABBA1 "A" "B" 1` returns `Some 0`: the
implementation has already expanded once before its round loop, so it
counts 2-hop walks. -/
theorem exact_stops_cex :
    exact_stops gABBA1 "A" "B" 1 = some 0 ∧ specHopCount gABBA1 "A" "B" 1 = 1 :=
  ⟨by decide, by decide⟩

/-! ### Fuel monotonicity of the two while-loops -/

theorem ssLoop_mono (g : Stations) (dest : Station) (k : Nat) :
    ∀ (f : Nat) (fr : List Route) (b v : Nat),
      ssLoop g dest f fr b = .ok v → ssLoop g dest (f + k) fr b = .ok v := by
  intro f
  induction f with
  | zero =>
    intro fr b v h
    cases fr with
    | nil =>
      simp only [ssLoop] at h ⊢
      exact h
    | cons r rs => simp [ssLoop] at h
  | succ f ih =>
    intro fr b v h
    cases fr with
    | nil =>
      simp only [ssLoop] at h ⊢
      exact h
    | cons r rs =>
      rw [show f + 1 + k = (f + k) + 1 from by omega]
      rw [ssLoop] at h ⊢
      cases hr : ssRound g dest (r :: rs) b [] with
      | none => rw [hr] at h; exact absurd h (by simp)
      | some bn =>
        rw [hr] at h
        exact ih bn.2 bn.1 v h

theorem shortest_route_mono (g : Stations) (s d : Station) (k f : Nat) (o : Option Nat)
    (h : shortest_route g s d f = .ok o) : shortest_route g s d (f + k) = .ok o := by
  rw [shortest_route] at h ⊢
  cases hn : next_stops g { distance := 0, stops := [s] } with
  | none => rw [hn] at h; exact absurd h (by simp [Except.map])
  | some f0 =>
    rw [hn] at h
    have h2 : Except.map (fun best => if best = UMAX then none else some best)
        (ssLoop g d f f0 UMAX) = .ok o := h
    show Except.map (fun best => if best = UMAX then none else some best)
        (ssLoop g d (f + k) f0 UMAX) = .ok o
    cases hl : ssLoop g d f f0 UMAX with
    | error e => rw [hl] at h2; exact absurd h2 (by simp [Except.map])
    | ok b =>
      rw [hl] at h2
      rw [ssLoop_mono g d k f f0 UMAX b hl]
      exact h2

theorem rltLoop_mono (g : Stations) (dest : Station) (maxD k : Nat) :
    ∀ (f : Nat) (fr : List Route) (c v : Nat),
      rltLoop g dest maxD f fr c = .ok v → rltLoop g dest maxD (f + k) fr c = .ok v := by
  intro f
  induction f with
  | zero =>
    intro fr c v h
    cases fr with
    | nil =>
      simp only [rltLoop] at h ⊢
      exact h
    | cons r rs => simp [rltLoop] at h
  | succ f ih =>
    intro fr c v h
    cases fr with
    | nil =>
      simp only [rltLoop] at h ⊢
      exact h
    | cons r rs =>
      rw [show f + 1 + k = (f + k) + 1 from by omega]
      rw [rltLoop] at h ⊢
      cases hr : rltRound g dest maxD (r :: rs) c [] with
      | none => rw [hr] at h; exact absurd h (by simp)
      | some cn =>
        rw [hr] at h
        exact ih cn.2 cn.1 v h

theorem routes_less_than_mono (g : Stations) (s d : Station) (maxD k f v : Nat)
    (h : routes_less_than g s d maxD f = .ok v) :
    routes_less_than g s d maxD (f + k) = .ok v := by
  rw [routes_less_than] at h ⊢
  cases hn : next_stops g { distance := 0, stops := [s] } with
  | none => rw [hn] at h; exact absurd h (by simp)
  | some f0 =>
    rw [hn] at h
    have h2 : rltLoop g d maxD f f0 0 = .ok v := h
    show rltLoop g d maxD (f + k) f0 0 = .ok v
    exact rltLoop_mono g d maxD k f f0 0 v h2

/-! ### C7: the end-to-end battery -/

/-- C7: on the graph built from `AB5, BC4, CD8, DC8, DE6, AD5, CE2, EB3,
AE7`, evaluating the fixed ordered battery of 10 hardcoded queries
produces exactly the result strings `9, 5, 13, 22, NO SUCH ROUTE, 2, 3,
9, 9, 7` in that order (each the decimal value or the literal sentinel
`NO SUCH ROUTE`). The two loop-based queries terminate within 64 rounds,
so the result holds for every fuel of at least 64. -/
theorem battery_outputs (fuel : Nat) :
    COMMANDS.map (eval_cmd G7 (64 + fuel)) = expectedOutputs.map Except.ok := by
  have h8 : shortest_route G7 "A" "C" (64 + fuel) = .ok (some 9) :=
    shortest_route_mono G7 "A" "C" fuel 64 (some 9) (by rfl)
  have h9 : shortest_route G7 "B" "B" (64 + fuel) = .ok (some 9) :=
    shortest_route_mono G7 "B" "B" fuel 64 (some 9) (by rfl)
  have h10 : routes_less_than G7 "C" "C" 30 (64 + fuel) = .ok 7 :=
    routes_less_than_mono G7 "C" "C" 30 fuel 64 7 (by rfl)
  show [eval_cmd G7 (64 + fuel) .ABCDistance, eval_cmd G7 (64 + fuel) .ADDistance,
    eval_cmd G7 (64 + fuel) .ADCDistance, eval_cmd G7 (64 + fuel) .AEBCDDistance,
    eval_cmd G7 (64 + fuel) .AEDDistance, eval_cmd G7 (64 + fuel) .CCircular,
    eval_cmd G7 (64 + fuel) .ACFourStop, eval_cmd G7 (64 + fuel) .ACExpress,
    eval_cmd G7 (64 + fuel) .BCircle, eval_cmd G7 (64 + fuel) .CLessThanCircular] = _
  rw [show eval_cmd G7 (64 + fuel) .ACExpress = (shortest_route G7 "A" "C" (64 + fuel)).map fmtResult
      from rfl,
    show eval_cmd G7 (64 + fuel) .BCircle = (shortest_route G7 "B" "B" (64 + fuel)).map fmtResult
      from rfl,
    show eval_cmd G7 (64 + fuel) .CLessThanCircular =
        (routes_less_than G7 "C" "C" 30 (64 + fuel)).map (fun c => fmtResult (some c)) from rfl,
    h8, h9, h10]
  rfl

/-! ### Lemmas about the true-distance walk frontier `tF` -/

theorem le_foldl_max : ∀ (l : List Nat) (acc : Nat), acc ≤ l.foldl max acc
  | [], _ => le_refl _
  | a :: l, acc => le_trans (Nat.le_max_left acc a) (le_foldl_max l (max acc a))

theorem mem_le_foldl_max : ∀ (l : List Nat) (acc a : Nat), a ∈ l → a ≤ l.foldl max acc
  | b :: l, acc, a, h => by
    rcases List.mem_cons.mp h with rfl | hmem
    · exact le_trans (Nat.le_max_right acc a) (le_foldl_max l (max acc a))
    · exact mem_le_foldl_max l (max acc b) a hmem

theorem weight_le_maxW (g : Stations) (st : Station) (al : AdjList) (q : Station × Nat)
    (h : lookupSt g st = some al) (hq : q ∈ al) : q.2 ≤ maxW g := by
  rw [maxW]
  apply mem_le_foldl_max
  rw [List.mem_flatMap]
  exact ⟨(st, al), lookupSt_mem g st al h, List.mem_map_of_mem _ hq⟩

theorem weight_pos (g : Stations) (hp : posW g = true) (st : Station) (al : AdjList)
    (q : Station × Nat) (h : lookupSt g st = some al) (hq : q ∈ al) : 0 < q.2 :=
  (posW_iff g).mp hp _ (lookupSt_mem g st al h) q hq

theorem mem_texpand (g : Stations) (r r2 : Route) :
    r2 ∈ texpand g r ↔ ∃ al, lookupSt g (currentStation r) = some al ∧
      ∃ q ∈ al, { distance := r.distance + q.2, stops := r.stops ++ [q.1] : Route } = r2 := by
  rw [texpand]
  cases h : lookupSt g (currentStation r) with
  | none => simp
  | some al => simp [List.mem_map]

theorem texpand_current (g : Stations) (r r2 : Route) (h : r2 ∈ texpand g r) :
    ∃ al q, lookupSt g (currentStation r) = some al ∧ q ∈ al ∧
      currentStation r2 = q.1 ∧ r2.distance = r.distance + q.2 := by
  obtain ⟨al, hal, q, hq, heq⟩ := (mem_texpand g r r2).mp h
  refine ⟨al, q, hal, hq, ?_, ?_⟩
  · rw [← heq]
    exact getLastD_append_single r.stops q.1 ""
  · rw [← heq]

theorem texpand_dist_le (g : Stations) (r r2 : Route) (h : r2 ∈ texpand g r) :
    r2.distance ≤ r.distance + maxW g := by
  obtain ⟨al, q, hal, hq, _, hd⟩ := texpand_current g r r2 h
  have := weight_le_maxW g _ al q hal hq
  omega

theorem texpand_dist_lt (g : Stations) (hp : posW g = true) (r r2 : Route)
    (h : r2 ∈ texpand g r) : r.distance < r2.distance := by
  obtain ⟨al, q, hal, hq, _, hd⟩ := texpand_current g r r2 h
  have := weight_pos g hp _ al q hal hq
  omega

theorem texpand_key (g : Stations) (hc : closedG g = true) (r r2 : Route)
    (h : r2 ∈ texpand g r) : isKey g (currentStation r2) = true := by
  obtain ⟨al, q, hal, hq, hcur, _⟩ := texpand_current g r r2 h
  rw [hcur]
  exact (closedG_iff g).mp hc _ (lookupSt_mem g _ al hal) q hq

theorem mem_tF_succ (g : Stations) (s : Station) (k : Nat) (r : Route)
    (h : r ∈ tF g s (k + 1)) : ∃ p ∈ tF g s k, r ∈ texpand g p := by
  rw [tF] at h
  exact List.mem_flatMap.mp h

theorem tF_succ_of_mem (g : Stations) (s : Station) (k : Nat) (p r : Route)
    (hp : p ∈ tF g s k) (h : r ∈ texpand g p) : r ∈ tF g s (k + 1) := by
  rw [tF]
  exact List.mem_flatMap.mpr ⟨p, hp, h⟩

theorem tF_dist_lb (g : Stations) (s : Station) (hp : posW g = true) :
    ∀ (k : Nat) (r : Route), r ∈ tF g s k → k + 1 ≤ r.distance
  | 0, r, h => by
    obtain ⟨al, q, hal, hq, _, hd⟩ := texpand_current g _ r h
    have := weight_pos g hp _ al q hal hq
    omega
  | k + 1, r, h => by
    obtain ⟨p, hp2, hmem⟩ := mem_tF_succ g s k r h
    have h1 := tF_dist_lb g s hp k p hp2
    have h2 := texpand_dist_lt g hp p r hmem
    omega

theorem tF_dist_ub (g : Stations) (s : Station) :
    ∀ (k : Nat) (r : Route), r ∈ tF g s k → r.distance ≤ (k + 1) * maxW g
  | 0, r, h => by
    obtain ⟨al, q, hal, hq, _, hd⟩ := texpand_current g _ r h
    have := weight_le_maxW g _ al q hal hq
    rw [hd]
    rw [Nat.zero_add, Nat.one_mul]
    omega
  | k + 1, r, h => by
    obtain ⟨p, hp2, hmem⟩ := mem_tF_succ g s k r h
    have h1 := tF_dist_ub g s k p hp2
    have h2 := texpand_dist_le g p r hmem
    rw [show k + 1 + 1 = (k + 1) + 1 from rfl, Nat.succ_mul]
    omega

theorem tF_key (g : Stations) (s : Station) (hc : closedG g = true) :
    ∀ (k : Nat) (r : Route), r ∈ tF g s k → isKey g (currentStation r) = true
  | 0, r, h => texpand_key g hc _ r h
  | k + 1, r, h => by
    obtain ⟨p, _, hmem⟩ := mem_tF_succ g s k r h
    exact texpand_key g hc p r hmem

theorem tF_start_key (g : Stations) (s : Station) :
    ∀ (k : Nat) (r : Route), r ∈ tF g s k → isKey g s = true
  | 0, r, h => by
    obtain ⟨al, hal, _⟩ := (mem_texpand g _ r).mp h
    have hcur : currentStation { distance := 0, stops := [s] : Route } = s := rfl
    rw [hcur] at hal
    simp [isKey, hal]
  | k + 1, r, h => by
    obtain ⟨p, hp2, _⟩ := mem_tF_succ g s k r h
    exact tF_start_key g s k p hp2

theorem next_stops_eq_texpand (g : Stations) (r : Route) (al : AdjList)
    (h : lookupSt g (currentStation r) = some al)
    (hb : ∀ q ∈ al, r.distance + q.2 < U32M) :
    next_stops g r = some (texpand g r) := by
  rw [next_stops, h, texpand, h]
  show some (al.map fun p =>
      { distance := u32add r.distance p.2, stops := r.stops ++ [p.1] : Route }) =
    some (al.map fun p =>
      { distance := r.distance + p.2, stops := r.stops ++ [p.1] : Route })
  congr 1
  apply List.map_congr_left
  intro q hq
  have hu : u32add r.distance q.2 = r.distance + q.2 := Nat.mod_eq_of_lt (hb q hq)
  rw [hu]

/-! ### C5: `routes_less_than` -/

theorem qF_sub_tF (g : Stations) (s : Station) (c : Nat) :
    ∀ (k : Nat) (r : Route), r ∈ qF g s c k → r ∈ tF g s k
  | 0, _, h => h
  | k + 1, r, h => by
    rw [qF] at h
    obtain ⟨p, hp, hmem⟩ := List.mem_flatMap.mp h
    exact tF_succ_of_mem g s k p r
      (qF_sub_tF g s c k p (List.mem_filter.mp hp).1) hmem

theorem qF_nil (g : Stations) (s : Station) (c : Nat) (hp : posW g = true) :
    ∀ j : Nat, c ≤ j → 0 < j → qF g s c j = [] := by
  intro j hcj hj
  cases j with
  | zero => omega
  | succ k =>
    rw [qF]
    rw [List.filter_eq_nil_iff.mpr ?_]
    · rfl
    · intro r hr
      have := tF_dist_lb g s hp k r (qF_sub_tF g s c k r hr)
      simp only [decide_eq_true_eq]
      omega

theorem qF_empty_mono (g : Stations) (s : Station) (c j : Nat) (h : qF g s c j = []) :
    ∀ i : Nat, qF g s c (j + i) = []
  | 0 => h
  | i + 1 => by
    rw [show j + (i + 1) = (j + i) + 1 from rfl, qF, qF_empty_mono g s c j h i]
    rfl

theorem rltRound_spec (g : Stations) (dest : Station) (c : Nat) :
    ∀ (F : List Route) (count : Nat) (acc : List Route),
      (∀ r ∈ F, isKey g (currentStation r) = true) →
      (∀ r ∈ F, r.distance < c → r.distance + maxW g < U32M) →
      rltRound g dest c F count acc =
        some (count + (F.filter fun r => decide (r.distance < c)).countP
            (fun r => currentStation r == dest),
          acc ++ (F.filter fun r => decide (r.distance < c)).flatMap (texpand g))
  | [], count, acc, _, _ => by simp [rltRound]
  | r :: rs, count, acc, hk, hb => by
    by_cases hlt : r.distance < c
    · obtain ⟨al, hal⟩ := Option.isSome_iff_exists.mp (hk r (by simp))
      have hns : next_stops g r = some (texpand g r) := by
        apply next_stops_eq_texpand g r al hal
        intro q hq
        have h1 := weight_le_maxW g _ al q hal hq
        have h2 := hb r (by simp) hlt
        omega
      rw [rltRound, if_pos hlt, hns]
      show rltRound g dest c rs (if currentStation r == dest then count + 1 else count)
          (acc ++ texpand g r) = _
      rw [rltRound_spec g dest c rs _ _ (fun x hx => hk x (by simp [hx]))
        (fun x hx => hb x (by simp [hx]))]
      rw [List.filter_cons_of_pos (by simp [hlt]), List.countP_cons, List.flatMap_cons]
      refine congrArg some (Prod.ext ?_ ?_)
      · show (if currentStation r == dest then count + 1 else count) + _ = _
        cases hd : currentStation r == dest
        all_goals simp [hd]
        all_goals try omega
      · show acc ++ texpand g r ++ _ = _
        rw [List.append_assoc]
    · rw [rltRound, if_neg hlt]
      rw [rltRound_spec g dest c rs count acc (fun x hx => hk x (by simp [hx]))
        (fun x hx => hb x (by simp [hx]))]
      rw [List.filter_cons_of_neg (by simp [hlt])]

theorem rltCnt_zero_of_nil (g : Stations) (s dest : Station) (c k : Nat)
    (h : qF g s c k = []) : rltCnt g s dest c k = 0 := by
  rw [rltCnt, h]
  rfl

theorem rltRest_succ (g : Stations) (s dest : Station) (c j : Nat) (hj : j ≤ c) :
    rltRest g s dest c j = rltCnt g s dest c j + rltRest g s dest c (j + 1) := by
  rw [rltRest, rltRest, show c + 1 - j = (c + 1 - (j + 1)) + 1 from by omega,
    List.range_succ_eq_map, List.map_cons, List.map_map, List.sum_cons]
  congr 2
  apply List.map_congr_left
  intro i _
  show rltCnt g s dest c (j + (i + 1)) = rltCnt g s dest c (j + 1 + i)
  congr 1
  omega

theorem rltRest_zero_of_nil (g : Stations) (s dest : Station) (c j : Nat)
    (h : qF g s c j = []) : rltRest g s dest c j = 0 := by
  rw [rltRest]
  apply List.sum_eq_zero
  intro x hx
  obtain ⟨i, _, hix⟩ := List.mem_map.mp hx
  rw [← hix]
  exact rltCnt_zero_of_nil g s dest c (j + i) (qF_empty_mono g s c j h i)

theorem rltLoop_qF (g : Stations) (s dest : Station) (c : Nat)
    (hp : posW g = true) (hc : closedG g = true) (hb : c + maxW g < U32M) :
    ∀ (fuel j count : Nat), c + 1 ≤ j + fuel →
      rltLoop g dest c fuel (qF g s c j) count = .ok (count + rltRest g s dest c j) := by
  intro fuel
  induction fuel with
  | zero =>
    intro j count hfj
    have hnil : qF g s c j = [] := qF_nil g s c hp j (by omega) (by omega)
    rw [hnil, rltRest_zero_of_nil g s dest c j hnil]
    rfl
  | succ fuel ih =>
    intro j count hfj
    by_cases hnil : qF g s c j = []
    · rw [hnil, rltRest_zero_of_nil g s dest c j hnil]
      rfl
    · have hjc : j ≤ c := by
        by_contra hgt
        exact hnil (qF_nil g s c hp j (by omega) (by omega))
      have hkeys : ∀ r ∈ qF g s c j, isKey g (currentStation r) = true := fun r hr =>
        tF_key g s hc j r (qF_sub_tF g s c j r hr)
      have hbound : ∀ r ∈ qF g s c j, r.distance < c → r.distance + maxW g < U32M := by
        intro r _ hr
        omega
      have hround : rltRound g dest c (qF g s c j) count [] =
          some (count + rltCnt g s dest c j, qF g s c (j + 1)) := by
        rw [rltRound_spec g dest c (qF g s c j) count [] hkeys hbound]
        rfl
      obtain ⟨r, rs, hcons⟩ := List.exists_cons_of_ne_nil hnil
      rw [hcons] at hround ⊢
      rw [rltLoop, hround]
      show rltLoop g dest c fuel (qF g s c (j + 1)) (count + rltCnt g s dest c j) = _
      rw [ih (j + 1) (count + rltCnt g s dest c j) (by omega)]
      rw [rltRest_succ g s dest c j hjc, Nat.add_assoc]

theorem texpandIter_append (g : Stations) :
    ∀ (m : Nat) (l1 l2 : List Route),
      texpandIter g m (l1 ++ l2) = texpandIter g m l1 ++ texpandIter g m l2
  | 0, _, _ => rfl
  | m + 1, l1, l2 => by
    rw [texpandIter, List.flatMap_append, texpandIter_append g m]
    rfl

theorem countP_hi_dist (g : Stations) (dest : Station) (c : Nat) :
    ∀ (m : Nat) (l : List Route), (∀ r ∈ l, c ≤ r.distance) →
      (texpandIter g m l).countP
        (fun r => currentStation r == dest && decide (r.distance < c)) = 0
  | 0, l, h => by
    rw [texpandIter, List.countP_eq_zero]
    intro r hr
    have := h r hr
    simp only [Bool.and_eq_true, decide_eq_true_eq, not_and]
    omega
  | m + 1, l, h => by
    rw [texpandIter]
    apply countP_hi_dist g dest c m
    intro r hr
    obtain ⟨p, hp, hmem⟩ := List.mem_flatMap.mp hr
    have h1 := h p hp
    obtain ⟨al, q, _, _, _, hd⟩ := texpand_current g p r hmem
    omega

theorem countP_texpandIter_filter (g : Stations) (dest : Station) (c m : Nat) :
    ∀ l : List Route,
      (texpandIter g m (l.filter fun r => decide (r.distance < c))).countP
          (fun r => currentStation r == dest && decide (r.distance < c)) =
        (texpandIter g m l).countP
          (fun r => currentStation r == dest && decide (r.distance < c))
  | [] => rfl
  | r :: l => by
    by_cases hlt : r.distance < c
    · rw [List.filter_cons_of_pos (by simp [hlt])]
      rw [show r :: (l.filter fun x => decide (x.distance < c)) =
        [r] ++ (l.filter fun x => decide (x.distance < c)) from rfl]
      rw [show r :: l = [r] ++ l from rfl]
      rw [texpandIter_append, texpandIter_append, List.countP_append, List.countP_append]
      rw [countP_texpandIter_filter g dest c m l]
    · rw [List.filter_cons_of_neg (by simp [hlt])]
      rw [countP_texpandIter_filter g dest c m l]
      rw [show r :: l = [r] ++ l from rfl]
      rw [texpandIter_append, List.countP_append]
      rw [countP_hi_dist g dest c m [r] ?_]
      · omega
      · intro x hx
        rcases List.mem_singleton.mp hx with rfl
        omega

theorem countP_qF_tF (g : Stations) (s dest : Station) (c : Nat) :
    ∀ (i m : Nat),
      (texpandIter g m (qF g s c i)).countP
          (fun r => currentStation r == dest && decide (r.distance < c)) =
        (texpandIter g m (tF g s i)).countP
          (fun r => currentStation r == dest && decide (r.distance < c))
  | 0, _ => rfl
  | i + 1, m => by
    show (texpandIter g (m + 1) ((qF g s c i).filter fun r =>
        decide (r.distance < c))).countP _ = _
    rw [countP_texpandIter_filter g dest c (m + 1) (qF g s c i)]
    rw [countP_qF_tF g s dest c i (m + 1)]
    rfl

theorem rltCnt_eq_tF (g : Stations) (s dest : Station) (c k : Nat) :
    rltCnt g s dest c k =
      ((tF g s k).filter fun r =>
        currentStation r == dest && decide (r.distance < c)).length := by
  rw [rltCnt, List.countP_filter, ← List.countP_eq_length_filter]
  exact countP_qF_tF g s dest c k 0

theorem rltRest_zero_eq_NwalksBelow (g : Stations) (s dest : Station) (c : Nat)
    (hp : posW g = true) : rltRest g s dest c 0 = NwalksBelow g s dest c := by
  rw [rltRest, NwalksBelow, Nat.sub_zero, List.range_succ, List.map_append,
    List.sum_append]
  have hlast : rltCnt g s dest c c = 0 := by
    cases c with
    | zero =>
      rw [rltCnt, List.countP_eq_zero]
      intro r hr
      simp [List.mem_filter] at hr
    | succ c2 =>
      exact rltCnt_zero_of_nil g s dest _ _
        (qF_nil g s (c2 + 1) hp (c2 + 1) (le_refl _) (by omega))
  rw [List.map_singleton, List.sum_singleton, show (0 : Nat) + c = c from Nat.zero_add c,
    hlast, Nat.add_zero]
  apply congrArg
  apply List.map_congr_left
  intro i _
  rw [show (0 : Nat) + i = i from Nat.zero_add i]
  exact rltCnt_eq_tF g s dest c i

/-- C5 (amended): for every graph with strictly positive edge distances in
which every edge destination has outgoing edges, every start that is a
key, and every exclusive ceiling `c` with `c + maxW g < 2^32` (so the
`u32` accumulation cannot wrap), `routes_less_than` terminates (within
`c + 1` rounds) and returns `Some` of the number of walks of at least one
hop from start to destination whose exact accumulated distance is
strictly below `c` (`NwalksBelow`): a qualifying route at the destination
both increments the count and is expanded further (matches are not
terminal), and routes at or above the ceiling are discarded. On graph
`AB1,BC1,BA2,CA3,CD5,DA5` with start=A, dest=A, c=8 this number is 3. The
hypotheses absent from the original claim are forced by the dead-end
panic of `next_stops`, by divergence on zero-distance cycles, and by
`u32` wrapping. -/
theorem routes_less_than_correct (g : Stations) (s d : Station) (c : Nat)
    (hp : posW g = true) (hc : closedG g = true) (hs : isKey g s = true)
    (hb : c + maxW g < U32M) :
    ∀ fuel : Nat, routes_less_than g s d c (c + 1 + fuel) = .ok (NwalksBelow g s d c) := by
  intro fuel
  obtain ⟨al, hal⟩ := Option.isSome_iff_exists.mp hs
  have hal2 : lookupSt g (currentStation { distance := 0, stops := [s] }) = some al := hal
  have hns : next_stops g { distance := 0, stops := [s] } =
      some (texpand g { distance := 0, stops := [s] }) := by
    apply next_stops_eq_texpand g _ al hal2
    intro q hq
    have h1 := weight_le_maxW g _ al q hal2 hq
    have h2 : ({ distance := 0, stops := [s] : Route }).distance = 0 := rfl
    omega
  rw [routes_less_than, hns]
  show rltLoop g d c (c + 1 + fuel) (qF g s c 0) 0 = _
  rw [rltLoop_qF g s d c hp hc hb (c + 1 + fuel) 0 0 (by omega)]
  rw [Nat.zero_add, rltRest_zero_eq_NwalksBelow g s d c hp]

theorem routes_less_than_correct_witness :
    posW gLess = true ∧ closedG gLess = true ∧ isKey gLess "A" = true ∧
      8 + maxW gLess < U32M ∧
      routes_less_than gLess "A" "A" 8 9 = .ok (NwalksBelow gLess "A" "A" 8) ∧
      NwalksBelow gLess "A" "A" 8 = 3 :=
  ⟨by decide, by decide, by decide, by decide,
    routes_less_than_correct gLess "A" "A" 8 (by decide) (by decide) (by decide) (by decide) 0,
    by decide⟩

/-- On `gZero` (a zero-distance cycle `A↔B` plus `A→C5`) with destination
`B` and ceiling 1, the `routes_less_than` loop never empties its frontier:
the zero-distance routes stay below the ceiling forever. The invariant
describes the two alternating frontier shapes. -/
theorem rltLoop_gZero_diverges :
    ∀ (fuel : Nat) (F : List Route) (count : Nat),
      ((∃ l, F = [{ distance := 0, stops := l }] ∧ l.getLastD "" = "A") ∨
        (∃ l1 l2, F = [{ distance := 0, stops := l1 }, { distance := 5, stops := l2 }] ∧
          l1.getLastD "" = "B" ∧ l2.getLastD "" = "C")) →
      rltLoop gZero "B" 1 fuel F count = .error .fuelOut
  | 0, F, count, h => by
    rcases h with ⟨l, rfl, _⟩ | ⟨l1, l2, rfl, _, _⟩ <;> rfl
  | fuel + 1, F, count, h => by
    rcases h with ⟨l, hF, hlast⟩ | ⟨l1, l2, hF, hl1, hl2⟩
    · subst hF
      have hcur : currentStation { distance := 0, stops := l : Route } = "A" := hlast
      have hns : next_stops gZero { distance := 0, stops := l } =
          some [{ distance := 0, stops := l ++ ["B"] },
            { distance := 5, stops := l ++ ["C"] }] := by
        rw [next_stops, hcur]
        rfl
      have hround : rltRound gZero "B" 1 [{ distance := 0, stops := l }] count [] =
          some (count, [{ distance := 0, stops := l ++ ["B"] },
            { distance := 5, stops := l ++ ["C"] }]) := by
        rw [rltRound,
          if_pos (show ({ distance := 0, stops := l : Route }).distance < 1 from
            Nat.zero_lt_one),
          hns]
        show rltRound gZero "B" 1 []
          (if currentStation { distance := 0, stops := l : Route } == "B" then count + 1
            else count) _ = _
        rw [hcur]
        rfl
      rw [rltLoop, hround]
      exact rltLoop_gZero_diverges fuel _ count
        (Or.inr ⟨l ++ ["B"], l ++ ["C"], rfl, getLastD_append_single l "B" "",
          getLastD_append_single l "C" ""⟩)
    · subst hF
      have hcur1 : currentStation { distance := 0, stops := l1 : Route } = "B" := hl1
      have hns : next_stops gZero { distance := 0, stops := l1 } =
          some [{ distance := 0, stops := l1 ++ ["A"] }] := by
        rw [next_stops, hcur1]
        rfl
      have hround : rltRound gZero "B" 1
          [{ distance := 0, stops := l1 }, { distance := 5, stops := l2 }] count [] =
          some (count + 1, [{ distance := 0, stops := l1 ++ ["A"] }]) := by
        rw [rltRound,
          if_pos (show ({ distance := 0, stops := l1 : Route }).distance < 1 from
            Nat.zero_lt_one),
          hns]
        show rltRound gZero "B" 1 [{ distance := 5, stops := l2 }]
          (if currentStation { distance := 0, stops := l1 : Route } == "B" then count + 1
            else count) _ = _
        rw [hcur1]
        show rltRound gZero "B" 1 [{ distance := 5, stops := l2 }] (count + 1) _ = _
        rw [rltRound,
          if_neg (show ¬({ distance := 5, stops := l2 : Route }).distance < 1 from by
            show ¬(5 : Nat) < 1
            decide)]
        rfl
      rw [rltLoop, hround]
      exact rltLoop_gZero_diverges fuel _ (count + 1)
        (Or.inl ⟨l1 ++ ["A"], rfl, getLastD_append_single l1 "A" ""⟩)

/-- C5 counterexample: (1) on the positive-distance graph `A→B1` (with `B`
a dead end) the claim requires `Some 1` — there is exactly one walk from
`A` to `B` of distance below 10 — but the implementation never returns:
it panics when it expands the qualifying route standing at `B` (matches
are not terminal). (2) on a zero-distance cycle the loop diverges (it
never returns for any fuel), while the claim requires `Some` of a count
for every graph. -/
theorem routes_less_than_cex :
    (posW gAB1 = true ∧ NwalksBelow gAB1 "A" "B" 10 = 1 ∧
      ¬ ∃ fuel k, routes_less_than gAB1 "A" "B" 10 fuel = .ok k) ∧
      (¬ ∃ fuel k, routes_less_than gZero "A" "B" 1 fuel = .ok k) := by
  refine ⟨⟨by decide, by decide, ?_⟩, ?_⟩
  · rintro ⟨fuel, k, h⟩
    cases fuel with
    | zero =>
      rw [show routes_less_than gAB1 "A" "B" 10 0 = .error .fuelOut from rfl] at h
      exact Except.noConfusion h
    | succ n =>
      rw [show routes_less_than gAB1 "A" "B" 10 (n + 1) = .error .panicked from rfl] at h
      exact Except.noConfusion h
  · rintro ⟨fuel, k, h⟩
    have h0 : routes_less_than gZero "A" "B" 1 fuel = .error .fuelOut := by
      rw [routes_less_than,
        show next_stops gZero { distance := 0, stops := ["A"] } =
          some [{ distance := 0, stops := ["A", "B"] },
            { distance := 5, stops := ["A", "C"] }] from rfl]
      exact rltLoop_gZero_diverges fuel _ 0
        (Or.inr ⟨["A", "B"], ["A", "C"], rfl, rfl, rfl⟩)
    rw [h0] at h
    exact Except.noConfusion h

/-! ### C8: termination of `routes_less_than` -/

theorem rltFrontiers_qF (g : Stations) (s d : Station) (c : Nat)
    (hp : posW g = true) (hc : closedG g = true) (hs : isKey g s = true)
    (hb : c + maxW g < U32M) :
    ∀ k : Nat, rltFrontiers g s d c k = some (qF g s c k)
  | 0 => by
    obtain ⟨al, hal⟩ := Option.isSome_iff_exists.mp hs
    have hal2 : lookupSt g (currentStation { distance := 0, stops := [s] }) = some al := hal
    rw [rltFrontiers]
    apply next_stops_eq_texpand g _ al hal2
    intro q hq
    have h1 := weight_le_maxW g _ al q hal2 hq
    have h2 : ({ distance := 0, stops := [s] : Route }).distance = 0 := rfl
    omega
  | k + 1 => by
    rw [rltFrontiers, rltFrontiers_qF g s d c hp hc hs hb k]
    have hkeys : ∀ r ∈ qF g s c k, isKey g (currentStation r) = true := fun r hr =>
      tF_key g s hc k r (qF_sub_tF g s c k r hr)
    have hbound : ∀ r ∈ qF g s c k, r.distance < c → r.distance + maxW g < U32M := by
      intro r _ hr
      omega
    show (rltRound g d c (qF g s c k) 0 []).map (·.2) = _
    rw [rltRound_spec g d c (qF g s c k) 0 [] hkeys hbound]
    rfl

/-- C8 (amended): for every graph with strictly positive edge distances
in which every edge destination has outgoing edges, every start that is a
key, and every finite ceiling `c` with `c + maxW g < 2^32` (so the `u32`
accumulation cannot wrap below the ceiling), the frontier of
`routes_less_than` becomes empty after at most `c + 1` rounds: each hop
strictly increases the exact accumulated distance and routes at or above
the ceiling are discarded. The extra hypotheses are forced by the
dead-end panic of `next_stops` and by `u32` wrapping, which can carry a
route's distance back below the ceiling and make the loop run forever. -/
theorem routes_less_than_terminates (g : Stations) (s d : Station) (c : Nat)
    (hp : posW g = true) (hc : closedG g = true) (hs : isKey g s = true)
    (hb : c + maxW g < U32M) :
    ∃ R ≤ c + 1, rltFrontiers g s d c R = some [] := by
  refine ⟨c + 1, le_refl _, ?_⟩
  rw [rltFrontiers_qF g s d c hp hc hs hb (c + 1),
    qF_nil g s c hp (c + 1) (by omega) (by omega)]

theorem routes_less_than_terminates_witness :
    posW gLess = true ∧ ∃ R ≤ 9, rltFrontiers gLess "A" "A" 8 R = some [] :=
  ⟨by decide,
    routes_less_than_terminates gLess "A" "A" 8 (by decide) (by decide) (by decide) (by decide)⟩

theorem rltFrontiers_gAB1_none : ∀ k : Nat, rltFrontiers gAB1 "A" "B" 10 (k + 1) = none
  | 0 => rfl
  | k + 1 => by
    rw [rltFrontiers, rltFrontiers_gAB1_none k]
    rfl

/-- On the two-cycle `A↔B` with distance 2 and ceiling `u32::MAX`, every
`routes_less_than` frontier is a single route of even wrapped distance
standing at `A` or `B`; the wrapped distance never reaches the odd
ceiling, so the frontier never empties (the real loop runs forever). -/
theorem rltFrontiers_gABBA2 :
    ∀ k : Nat, ∃ r, rltFrontiers gABBA2 "A" "A" UMAX k = some [r] ∧
      r.distance % 2 = 0 ∧ r.distance < U32M ∧
      (currentStation r = "A" ∨ currentStation r = "B")
  | 0 => ⟨{ distance := 2, stops := ["A", "B"] }, rfl, by decide, by decide, Or.inr rfl⟩
  | k + 1 => by
    obtain ⟨r, hk, heven, hlt, hcur⟩ := rltFrontiers_gABBA2 k
    have hne : r.distance < UMAX := by
      show r.distance < 4294967295
      have hlt2 : r.distance < 4294967296 := hlt
      omega
    have hmod2 : ∀ d2 : Nat, d2 % 2 = 0 → u32add d2 2 % 2 = 0 := by
      intro d2 h
      show (d2 + 2) % 4294967296 % 2 = 0
      omega
    have hmodlt : ∀ d2 : Nat, u32add d2 2 < U32M := by
      intro d2
      show (d2 + 2) % 4294967296 < 4294967296
      omega
    rcases hcur with hA | hB
    · refine ⟨{ distance := u32add r.distance 2, stops := r.stops ++ ["B"] }, ?_,
        hmod2 r.distance heven, hmodlt r.distance,
        Or.inr (getLastD_append_single r.stops "B" "")⟩
      have hns : next_stops gABBA2 r =
          some [{ distance := u32add r.distance 2, stops := r.stops ++ ["B"] }] := by
        rw [next_stops, hA]
        rfl
      have hround : rltRound gABBA2 "A" UMAX [r] 0 [] =
          some (1, [{ distance := u32add r.distance 2, stops := r.stops ++ ["B"] }]) := by
        rw [rltRound, if_pos hne, hns]
        show rltRound gABBA2 "A" UMAX []
          (if currentStation r == "A" then 0 + 1 else 0) _ = _
        rw [hA]
        rfl
      rw [rltFrontiers, hk]
      show (rltRound gABBA2 "A" UMAX [r] 0 []).map (·.2) = _
      rw [hround]
      rfl
    · refine ⟨{ distance := u32add r.distance 2, stops := r.stops ++ ["A"] }, ?_,
        hmod2 r.distance heven, hmodlt r.distance,
        Or.inl (getLastD_append_single r.stops "A" "")⟩
      have hns : next_stops gABBA2 r =
          some [{ distance := u32add r.distance 2, stops := r.stops ++ ["A"] }] := by
        rw [next_stops, hB]
        rfl
      have hround : rltRound gABBA2 "A" UMAX [r] 0 [] =
          some (0, [{ distance := u32add r.distance 2, stops := r.stops ++ ["A"] }]) := by
        rw [rltRound, if_pos hne, hns]
        show rltRound gABBA2 "A" UMAX []
          (if currentStation r == "A" then 0 + 1 else 0) _ = _
        rw [hB]
        rfl
      rw [rltFrontiers, hk]
      show (rltRound gABBA2 "A" UMAX [r] 0 []).map (·.2) = _
      rw [hround]
      rfl

/-- C8 counterexample: two strictly-positive-distance inputs on which the
frontier of `routes_less_than` never becomes empty. (1) On `A→B1` with
ceiling 10 the expansion of the dead-end route panics in round 1, so no
round ever produces an empty frontier. (2) On the two-cycle `A↔B` with
distance 2 and ceiling `u32::MAX`, the wrapped `u32` distance stays even
and therefore below the odd ceiling forever — the loop never terminates,
because a hop does not strictly increase the *wrapped* distance. -/
theorem routes_less_than_terminates_cex :
    (posW gAB1 = true ∧ ¬ ∃ R, rltFrontiers gAB1 "A" "B" 10 R = some []) ∧
      (posW gABBA2 = true ∧ ¬ ∃ R, rltFrontiers gABBA2 "A" "A" UMAX R = some []) := by
  constructor
  · refine ⟨by decide, ?_⟩
    rintro ⟨R, hR⟩
    cases R with
    | zero => exact absurd hR (by decide)
    | succ k =>
      rw [rltFrontiers_gAB1_none k] at hR
      exact Option.noConfusion hR
  · refine ⟨by decide, ?_⟩
    rintro ⟨R, hR⟩
    obtain ⟨r, hk, _, _, _⟩ := rltFrontiers_gABBA2 R
    rw [hk] at hR
    have hlist : [r] = ([] : List Route) := Option.some.inj hR
    exact absurd hlist (by simp)

/-! ### C4: `shortest_route` -/

theorem leads_dist (g : Stations) (hp : posW g = true) (t : Route) :
    ∀ (ρ : Route) (m : Nat), Leads g t ρ m → ρ.distance + m ≤ t.distance := by
  intro ρ m h
  induction h with
  | zero => omega
  | succ hstep _ ih =>
    have := texpand_dist_lt g hp _ _ hstep
    omega

theorem leads_snoc (g : Stations) (t t2 : Route) (h2 : t2 ∈ texpand g t) :
    ∀ (ρ : Route) (m : Nat), Leads g t ρ m → Leads g t2 ρ (m + 1) := by
  intro ρ m h
  induction h with
  | zero => exact Leads.succ h2 Leads.zero
  | succ hstep _ ih => exact Leads.succ hstep ih

theorem leads_succ_inv (g : Stations) (t ρ : Route) (m : Nat) (h : Leads g t ρ (m + 1)) :
    ∃ ρ2, ρ2 ∈ texpand g ρ ∧ Leads g t ρ2 m := by
  cases h with
  | succ h1 h2 => exact ⟨_, h1, h2⟩

theorem tF_leads (g : Stations) (s : Station) :
    ∀ (k : Nat) (t : Route), t ∈ tF g s k → ∃ r0 ∈ tF g s 0, Leads g t r0 k
  | 0, t, h => ⟨t, h, Leads.zero⟩
  | k + 1, t, h => by
    obtain ⟨p, hp2, hmem⟩ := mem_tF_succ g s k t h
    obtain ⟨r0, hr0, hlead⟩ := tF_leads g s k p hp2
    exact ⟨r0, hr0, leads_snoc g p t hmem r0 k hlead⟩

theorem tF_maxW_pos (g : Stations) (s : Station) (hp : posW g = true) (k : Nat) (r : Route)
    (h : r ∈ tF g s k) : 1 ≤ maxW g := by
  cases k with
  | zero =>
    obtain ⟨al, q, hal, hq, _, _⟩ := texpand_current g _ r h
    have h1 := weight_pos g hp _ al q hal hq
    have h2 := weight_le_maxW g _ al q hal hq
    omega
  | succ k =>
    obtain ⟨p, _, hmem⟩ := mem_tF_succ g s k r h
    obtain ⟨al, q, hal, hq, _, _⟩ := texpand_current g p r hmem
    have h1 := weight_pos g hp _ al q hal hq
    have h2 := weight_le_maxW g _ al q hal hq
    omega

/-- One round of `shortest_route` simulated over true-distance walk
routes: given a frontier of `j+1`-hop walks and a running best that is at
least the optimum, the round never panics, the best only tightens (and
only to the distance of a destination hit in the frontier), the next
frontier consists of expansions of surviving routes, every cheap
non-destination route is fully expanded, and a destination hit below the
best drags the best down to at most its distance. -/
theorem ssRound_sim (g : Stations) (s dest : Station) (opt : Nat)
    (hp : posW g = true) (hc : closedG g = true)
    (hmin : ∀ (k : Nat) (r : Route), r ∈ tF g s k → currentStation r = dest →
      opt ≤ r.distance)
    (hov : (opt + 2) * maxW g < U32M)
    (j : Nat) (hj : j ≤ opt) :
    ∀ (F : List Route) (b : Nat) (acc : List Route),
      (∀ r ∈ F, r ∈ tF g s j) → opt ≤ b → b ≤ UMAX →
      ∃ b2 N, ssRound g dest F b acc = some (b2, N) ∧
        opt ≤ b2 ∧ b2 ≤ b ∧
        (b2 = b ∨ ∃ ρ, ρ ∈ F ∧ currentStation ρ = dest ∧ ρ.distance = b2) ∧
        (∀ r2 ∈ N, r2 ∈ acc ∨ ∃ ρ, ρ ∈ F ∧ ρ.distance < b ∧ r2 ∈ texpand g ρ) ∧
        (∀ ρ ∈ F, ρ.distance < opt → currentStation ρ ≠ dest →
          ∀ r2 ∈ texpand g ρ, r2 ∈ N) ∧
        (∀ r2 ∈ acc, r2 ∈ N) ∧
        (∀ ρ ∈ F, currentStation ρ = dest → ρ.distance < b → b2 ≤ ρ.distance)
  | [], b, acc, hF, hob, hbu =>
    ⟨b, acc, rfl, hob, le_refl b, Or.inl rfl,
      fun r2 hr2 => Or.inl hr2,
      fun ρ hρ => absurd hρ (List.not_mem_nil ρ),
      fun r2 hr2 => hr2,
      fun ρ hρ => absurd hρ (List.not_mem_nil ρ)⟩
  | r :: rs, b, acc, hF, hob, hbu => by
    have hrT : r ∈ tF g s j := hF r (List.mem_cons_self r rs)
    have hFrs : ∀ x ∈ rs, x ∈ tF g s j := fun x hx => hF x (List.mem_cons_of_mem r hx)
    by_cases hlt : r.distance < b
    · by_cases hdest : currentStation r = dest
      · have hmr : opt ≤ r.distance := hmin j r hrT hdest
        obtain ⟨b2, N, heq, c1, c2, c3, c4, c5, c6, c7⟩ :=
          ssRound_sim g s dest opt hp hc hmin hov j hj rs r.distance acc hFrs hmr
            (le_of_lt (lt_of_lt_of_le hlt hbu))
        refine ⟨b2, N, ?_, c1, le_trans c2 (le_of_lt hlt), ?_, ?_, ?_, c6, ?_⟩
        · rw [ssRound, if_pos hlt, if_pos (by simp [hdest])]
          exact heq
        · rcases c3 with hb2 | ⟨ρ, hρ, hρd, hρdist⟩
          · exact Or.inr ⟨r, List.mem_cons_self r rs, hdest, hb2.symm⟩
          · exact Or.inr ⟨ρ, List.mem_cons_of_mem r hρ, hρd, hρdist⟩
        · intro r2 hr2
          rcases c4 r2 hr2 with h | ⟨ρ, hρ, hρlt, hρm⟩
          · exact Or.inl h
          · exact Or.inr ⟨ρ, List.mem_cons_of_mem r hρ, lt_trans hρlt hlt, hρm⟩
        · intro ρ hρ hρlt hρd r2 hr2
          rcases List.mem_cons.mp hρ with rfl | hmem
          · exact absurd hdest hρd
          · exact c5 ρ hmem hρlt hρd r2 hr2
        · intro ρ hρ hρd hρlt
          rcases List.mem_cons.mp hρ with rfl | hmem
          · exact c2
          · by_cases hρr : ρ.distance < r.distance
            · exact c7 ρ hmem hρd hρr
            · omega
      · obtain ⟨al, hal⟩ := Option.isSome_iff_exists.mp (tF_key g s hc j r hrT)
        have hns : next_stops g r = some (texpand g r) := by
          apply next_stops_eq_texpand g r al hal
          intro q hq
          have h1 := weight_le_maxW g _ al q hal hq
          have h2 := tF_dist_ub g s j r hrT
          have h3 : (j + 1) * maxW g ≤ (opt + 1) * maxW g :=
            Nat.mul_le_mul_right _ (by omega)
          have h4 : (opt + 1) * maxW g + maxW g = (opt + 2) * maxW g := by ring
          have h5 : r.distance + q.2 ≤ (opt + 1) * maxW g + maxW g :=
            Nat.add_le_add (le_trans h2 h3) h1
          rw [h4] at h5
          exact lt_of_le_of_lt h5 hov
        obtain ⟨b2, N, heq, c1, c2, c3, c4, c5, c6, c7⟩ :=
          ssRound_sim g s dest opt hp hc hmin hov j hj rs b (acc ++ texpand g r) hFrs hob hbu
        refine ⟨b2, N, ?_, c1, c2, ?_, ?_, ?_, ?_, ?_⟩
        · rw [ssRound, if_pos hlt, if_neg (by simp [hdest]), hns]
          exact heq
        · rcases c3 with h | ⟨ρ, hρ, h1, h2⟩
          · exact Or.inl h
          · exact Or.inr ⟨ρ, List.mem_cons_of_mem r hρ, h1, h2⟩
        · intro r2 hr2
          rcases c4 r2 hr2 with h | ⟨ρ, hρ, h1, h2⟩
          · rcases List.mem_append.mp h with h | h
            · exact Or.inl h
            · exact Or.inr ⟨r, List.mem_cons_self r rs, hlt, h⟩
          · exact Or.inr ⟨ρ, List.mem_cons_of_mem r hρ, h1, h2⟩
        · intro ρ hρ hρlt hρd r2 hr2
          rcases List.mem_cons.mp hρ with rfl | hmem
          · exact c6 r2 (List.mem_append.mpr (Or.inr hr2))
          · exact c5 ρ hmem hρlt hρd r2 hr2
        · exact fun r2 hr2 => c6 r2 (List.mem_append.mpr (Or.inl hr2))
        · intro ρ hρ hρd hρlt
          rcases List.mem_cons.mp hρ with rfl | hmem
          · exact absurd hρd hdest
          · exact c7 ρ hmem hρd hρlt
    · obtain ⟨b2, N, heq, c1, c2, c3, c4, c5, c6, c7⟩ :=
        ssRound_sim g s dest opt hp hc hmin hov j hj rs b acc hFrs hob hbu
      refine ⟨b2, N, ?_, c1, c2, ?_, ?_, ?_, c6, ?_⟩
      · rw [ssRound, if_neg hlt]
        exact heq
      · rcases c3 with h | ⟨ρ, hρ, h1, h2⟩
        · exact Or.inl h
        · exact Or.inr ⟨ρ, List.mem_cons_of_mem r hρ, h1, h2⟩
      · intro r2 hr2
        rcases c4 r2 hr2 with h | ⟨ρ, hρ, h1, h2⟩
        · exact Or.inl h
        · exact Or.inr ⟨ρ, List.mem_cons_of_mem r hρ, h1, h2⟩
      · intro ρ hρ hρlt hρd r2 hr2
        rcases List.mem_cons.mp hρ with rfl | hmem
        · exact absurd (lt_of_lt_of_le hρlt hob) hlt
        · exact c5 ρ hmem hρlt hρd r2 hr2
      · intro ρ hρ hρd hρlt
        rcases List.mem_cons.mp hρ with rfl | hmem
        · exact absurd hρlt hlt
        · exact c7 ρ hmem hρd hρlt

/-- The pruned breadth-first loop of `shortest_route`, run on the round-`j`
frontier with the stated invariants (including a chain of prefixes of a
shortest minimal-hop walk `rOpt` surviving in the frontier), terminates
with the optimal distance. -/
theorem ssLoop_sim (g : Stations) (s dest : Station) (opt K : Nat) (rOpt : Route)
    (hp : posW g = true) (hc : closedG g = true)
    (hmin : ∀ (k : Nat) (r : Route), r ∈ tF g s k → currentStation r = dest →
      opt ≤ r.distance)
    (hov : (opt + 2) * maxW g < U32M)
    (hKmem : rOpt ∈ tF g s K) (hKdest : currentStation rOpt = dest)
    (hKdist : rOpt.distance = opt)
    (hKmin : ∀ k < K, ∀ r ∈ tF g s k, ¬(currentStation r = dest ∧ r.distance = opt)) :
    ∀ (fuel j : Nat) (F : List Route) (b : Nat),
      opt + 1 ≤ j + fuel →
      (∀ r ∈ F, r ∈ tF g s j) →
      opt ≤ b → b ≤ UMAX →
      (j ≤ K → opt < b ∧ ∃ ρ, ρ ∈ F ∧ Leads g rOpt ρ (K - j)) →
      (K < j → b = opt) →
      (F ≠ [] → j ≤ opt) →
      ssLoop g dest fuel F b = .ok opt := by
  intro fuel
  induction fuel with
  | zero =>
    intro j F b hfuel hF hob hbu hA hB hne
    cases F with
    | nil =>
      have hKj : K < j := by
        by_contra hKj2
        obtain ⟨_, ρ, hρ, _⟩ := hA (by omega)
        exact absurd hρ (List.not_mem_nil ρ)
      rw [hB hKj]
      rfl
    | cons r rs => exact absurd (hne (by simp)) (by omega)
  | succ fuel ih =>
    intro j F b hfuel hF hob hbu hA hB hne
    cases F with
    | nil =>
      have hKj : K < j := by
        by_contra hKj2
        obtain ⟨_, ρ, hρ, _⟩ := hA (by omega)
        exact absurd hρ (List.not_mem_nil ρ)
      rw [hB hKj]
      rfl
    | cons r rs =>
      have hjopt : j ≤ opt := hne (by simp)
      obtain ⟨b2, N, heq, c1, c2, c3, c4, c5, c6, c7⟩ :=
        ssRound_sim g s dest opt hp hc hmin hov j hjopt (r :: rs) b [] hF hob hbu
      rw [ssLoop, heq]
      show ssLoop g dest fuel N b2 = .ok opt
      have hKopt : K + 1 ≤ opt := by
        have := tF_dist_lb g s hp K rOpt hKmem
        omega
      have hFN : ∀ r2 ∈ N, r2 ∈ tF g s (j + 1) := by
        intro r2 hr2
        rcases c4 r2 hr2 with h | ⟨ρ, hρ, _, hmem⟩
        · exact absurd h (List.not_mem_nil r2)
        · exact tF_succ_of_mem g s j ρ r2 (hF ρ hρ) hmem
      apply ih (j + 1) N b2 (by omega) hFN c1 (le_trans c2 hbu)
      · intro hjK
        obtain ⟨hoptb, ρ, hρF, hlead⟩ := hA (by omega)
        constructor
        · rcases c3 with h | ⟨ρh, hρh, hρhd, hρhdist⟩
          · omega
          · rcases Nat.lt_or_ge opt b2 with h2 | h2
            · exact h2
            · have hb2opt : b2 = opt := by omega
              exact absurd ⟨hρhd, by omega⟩ (hKmin j (by omega) ρh (hF ρh hρh))
        · obtain ⟨m, hm⟩ : ∃ m, K - j = m + 1 := ⟨K - j - 1, by omega⟩
          rw [hm] at hlead
          obtain ⟨ρ2, hstep, htail⟩ := leads_succ_inv g rOpt ρ m hlead
          have hρdist : ρ.distance + (m + 1) ≤ opt := by
            have := leads_dist g hp rOpt ρ (m + 1) hlead
            omega
          have hρnd : currentStation ρ ≠ dest := by
            intro hd
            have := hmin j ρ (hF ρ hρF) hd
            omega
          refine ⟨ρ2, c5 ρ hρF (by omega) hρnd ρ2 hstep, ?_⟩
          rw [show K - (j + 1) = m from by omega]
          exact htail
      · intro hKj
        by_cases hjK : j ≤ K
        · obtain ⟨hoptb, ρ, hρF, hlead⟩ := hA hjK
          have hm0 : K - j = 0 := by omega
          rw [hm0] at hlead
          have hρeq : ρ = rOpt := by cases hlead; rfl
          have h1 : b2 ≤ opt := by
            have h2 := c7 ρ hρF (by rw [hρeq]; exact hKdest) (by rw [hρeq]; omega)
            rw [hρeq] at h2
            omega
          omega
        · have := hB (by omega)
          omega
      · intro hNne
        obtain ⟨r2, hr2⟩ := List.exists_mem_of_ne_nil N hNne
        rcases c4 r2 hr2 with h | ⟨ρ, hρ, hρb, _⟩
        · exact absurd h (List.not_mem_nil r2)
        · by_cases hjK : j ≤ K
          · omega
          · have hbopt := hB (by omega)
            have := tF_dist_lb g s hp j ρ (hF ρ hρ)
            omega

/-- C4 (amended): for every graph with strictly positive edge distances in
which every edge destination has outgoing edges, whenever a walk of at
least one hop from start to destination exists with minimal exact
distance `opt` and the distances are small enough not to wrap
(`(opt + 2) * maxW g < 2^32`), `shortest_route` terminates within
`opt + 1` rounds and returns `Some opt` — for `start = destination` this
is the shortest nontrivial cycle, never the zero-length trivial path
(walks have at least one hop by construction). Moreover at each round
every route whose distance is at or above the running best is discarded
without being expanded. The original claim's `None` direction fails: with
a dead end the traversal panics, and without the extra hypotheses it can
run forever instead of returning. -/
theorem shortest_route_correct (g : Stations) (s dest : Station) (opt : Nat)
    (hp : posW g = true) (hc : closedG g = true)
    (hreach : ∃ (k : Nat) (r : Route),
      r ∈ tF g s k ∧ currentStation r = dest ∧ r.distance = opt)
    (hmin : ∀ (k : Nat) (r : Route), r ∈ tF g s k → currentStation r = dest →
      opt ≤ r.distance)
    (hov : (opt + 2) * maxW g < U32M) :
    (∀ fuel : Nat, shortest_route g s dest (opt + 1 + fuel) = .ok (some opt)) ∧
      (∀ (rs : List Route) (b : Nat) (acc : List Route) (r : Route), b ≤ r.distance →
        ssRound g dest (r :: rs) b acc = ssRound g dest rs b acc) := by
  constructor
  · intro fuel
    obtain ⟨k0, r0, hk0, hd0, hdist0⟩ := hreach
    have hex : ∃ k, hitOpt g s dest opt k = true := by
      refine ⟨k0, ?_⟩
      rw [hitOpt, List.any_eq_true]
      exact ⟨r0, hk0, by simp [hd0, hdist0]⟩
    obtain ⟨rOpt, hKmem, hKprop⟩ := List.any_eq_true.mp (Nat.find_spec hex)
    obtain ⟨hKdest, hKdist⟩ : currentStation rOpt = dest ∧ rOpt.distance = opt := by
      simpa using hKprop
    have hKmin : ∀ k < Nat.find hex, ∀ r ∈ tF g s k,
        ¬(currentStation r = dest ∧ r.distance = opt) := by
      intro k hk r hr hcontra
      apply Nat.find_min hex hk
      rw [hitOpt, List.any_eq_true]
      exact ⟨r, hr, by simp [hcontra.1, hcontra.2]⟩
    have hW1 : 1 ≤ maxW g := tF_maxW_pos g s hp (Nat.find hex) rOpt hKmem
    have hoptU : opt < UMAX := by
      have h1 : (opt + 2) * 1 ≤ (opt + 2) * maxW g := Nat.mul_le_mul_left _ hW1
      rw [Nat.mul_one] at h1
      have h2 : U32M = UMAX + 1 := rfl
      omega
    have hsk : isKey g s = true := tF_start_key g s (Nat.find hex) rOpt hKmem
    obtain ⟨al, hal⟩ := Option.isSome_iff_exists.mp hsk
    have hal2 : lookupSt g (currentStation { distance := 0, stops := [s] }) = some al := hal
    have hns : next_stops g { distance := 0, stops := [s] } =
        some (texpand g { distance := 0, stops := [s] }) := by
      apply next_stops_eq_texpand g _ al hal2
      intro q hq
      have h1 := weight_le_maxW g _ al q hal2 hq
      have h2 : ({ distance := 0, stops := [s] : Route }).distance = 0 := rfl
      have h3 : 1 * maxW g ≤ (opt + 2) * maxW g := Nat.mul_le_mul_right _ (by omega)
      rw [Nat.one_mul] at h3
      omega
    have hA0 : 0 ≤ Nat.find hex → opt < UMAX ∧
        ∃ ρ, ρ ∈ texpand g { distance := 0, stops := [s] } ∧
          Leads g rOpt ρ (Nat.find hex - 0) := by
      intro _
      obtain ⟨r0b, hr0b, hlead⟩ := tF_leads g s (Nat.find hex) rOpt hKmem
      refine ⟨hoptU, r0b, hr0b, ?_⟩
      rw [Nat.sub_zero]
      exact hlead
    have hloop := ssLoop_sim g s dest opt (Nat.find hex) rOpt hp hc hmin hov hKmem hKdest
      hKdist hKmin (opt + 1 + fuel) 0 (texpand g { distance := 0, stops := [s] }) UMAX
      (by omega) (fun r hr => hr) (le_of_lt hoptU) (le_refl UMAX) hA0
      (fun h => absurd h (Nat.not_lt_zero _)) (fun _ => Nat.zero_le opt)
    rw [shortest_route, hns]
    show Except.map (fun best => if best = UMAX then none else some best)
        (ssLoop g dest (opt + 1 + fuel) (texpand g { distance := 0, stops := [s] }) UMAX) =
      .ok (some opt)
    rw [hloop]
    simp [Except.map, Nat.ne_of_lt hoptU]
  · intro rs b acc r hbr
    rw [ssRound, if_neg (by omega)]

theorem shortest_route_correct_witness :
    posW gABBA1 = true ∧ closedG gABBA1 = true ∧
      shortest_route gABBA1 "A" "A" 3 = .ok (some 2) := by
  have hmin2 : ∀ (k : Nat) (r : Route), r ∈ tF gABBA1 "A" k →
      currentStation r = "A" → 2 ≤ r.distance := by
    intro k r hr hcur
    cases k with
    | zero =>
      rw [show tF gABBA1 "A" 0 = [{ distance := 1, stops := ["A", "B"] }] from by decide] at hr
      rcases List.mem_singleton.mp hr with rfl
      exact absurd hcur (by decide)
    | succ k =>
      have := tF_dist_lb gABBA1 "A" (by decide) (k + 1) r hr
      omega
  exact ⟨by decide, by decide,
    (shortest_route_correct gABBA1 "A" "A" 2 (by decide) (by decide)
      ⟨1, { distance := 2, stops := ["A", "B", "A"] }, by decide, rfl, rfl⟩
      hmin2 (by decide)).1 0⟩

/-- On `gZero` (a zero-distance cycle `A↔B` plus `A→C5`) with destination
`C`, the `shortest_route` loop never empties its frontier: the
zero-distance cycle routes always stay below the best (which settles at
5), so every fuel runs out. -/
theorem ssLoop_gZero_diverges :
    ∀ (fuel : Nat) (F : List Route) (b : Nat), 5 ≤ b →
      ((∃ l, F = [{ distance := 0, stops := l }] ∧ l.getLastD "" = "A") ∨
        (∃ l1 l2, F = [{ distance := 0, stops := l1 }, { distance := 5, stops := l2 }] ∧
          l1.getLastD "" = "B" ∧ l2.getLastD "" = "C")) →
      ssLoop gZero "C" fuel F b = .error .fuelOut
  | 0, F, b, hb, h => by
    rcases h with ⟨l, rfl, _⟩ | ⟨l1, l2, rfl, _, _⟩ <;> rfl
  | fuel + 1, F, b, hb, h => by
    rcases h with ⟨l, hF, hlast⟩ | ⟨l1, l2, hF, hl1, hl2⟩
    · subst hF
      have hcur : currentStation { distance := 0, stops := l : Route } = "A" := hlast
      have hns : next_stops gZero { distance := 0, stops := l } =
          some [{ distance := 0, stops := l ++ ["B"] },
            { distance := 5, stops := l ++ ["C"] }] := by
        rw [next_stops, hcur]
        rfl
      have hround : ssRound gZero "C" [{ distance := 0, stops := l }] b [] =
          some (b, [{ distance := 0, stops := l ++ ["B"] },
            { distance := 5, stops := l ++ ["C"] }]) := by
        rw [ssRound,
          if_pos (show ({ distance := 0, stops := l : Route }).distance < b from by
            show 0 < b
            omega),
          if_neg (show ¬(currentStation { distance := 0, stops := l : Route } == "C") = true
            from by simp [hcur]),
          hns]
        rfl
      rw [ssLoop, hround]
      exact ssLoop_gZero_diverges fuel _ b hb
        (Or.inr ⟨l ++ ["B"], l ++ ["C"], rfl, getLastD_append_single l "B" "",
          getLastD_append_single l "C" ""⟩)
    · subst hF
      have hcur1 : currentStation { distance := 0, stops := l1 : Route } = "B" := hl1
      have hcur2 : currentStation { distance := 5, stops := l2 : Route } = "C" := hl2
      have hns : next_stops gZero { distance := 0, stops := l1 } =
          some [{ distance := 0, stops := l1 ++ ["A"] }] := by
        rw [next_stops, hcur1]
        rfl
      have hround : ssRound gZero "C"
          [{ distance := 0, stops := l1 }, { distance := 5, stops := l2 }] b [] =
          some (5, [{ distance := 0, stops := l1 ++ ["A"] }]) := by
        rw [ssRound,
          if_pos (show ({ distance := 0, stops := l1 : Route }).distance < b from by
            show 0 < b
            omega),
          if_neg (show ¬(currentStation { distance := 0, stops := l1 : Route } == "C") = true
            from by simp [hcur1]),
          hns]
        show ssRound gZero "C" [{ distance := 5, stops := l2 }] b
          ([] ++ [{ distance := 0, stops := l1 ++ ["A"] }]) = _
        by_cases h5 : 5 < b
        · rw [ssRound,
            if_pos (show ({ distance := 5, stops := l2 : Route }).distance < b from h5),
            if_pos (show (currentStation { distance := 5, stops := l2 : Route } == "C") = true
              from by simp [hcur2])]
          rfl
        · have hb5 : b = 5 := by omega
          subst hb5
          rw [ssRound,
            if_neg (show ¬({ distance := 5, stops := l2 : Route }).distance < 5 from by
              show ¬(5 : Nat) < 5
              omega)]
          rfl
      rw [ssLoop, hround]
      exact ssLoop_gZero_diverges fuel _ 5 (le_refl 5)
        (Or.inl ⟨l1 ++ ["A"], rfl, getLastD_append_single l1 "A" ""⟩)

/-- C4 counterexample: (1) on the positive-distance graph `A→B1` (`B` a
dead end, no walk from `A` reaches `C`) the claim requires the result
`None`, but the implementation never returns it — expanding the route
standing at the dead end `B` panics. (2) on `gZero` (zero-distance cycle
`A↔B` plus `A→C5`) the shortest walk from `A` to `C` has distance 5, but
the implementation never returns at all: the zero-distance cycle keeps the
frontier nonempty forever, so the loop diverges rather than producing
`Some 5`. -/
theorem shortest_route_cex :
    (posW gAB1 = true ∧ ¬ ∃ fuel, shortest_route gAB1 "A" "C" fuel = .ok none) ∧
      (¬ ∃ fuel o, shortest_route gZero "A" "C" fuel = .ok o) := by
  constructor
  · refine ⟨by decide, ?_⟩
    rintro ⟨fuel, h⟩
    cases fuel with
    | zero =>
      rw [show shortest_route gAB1 "A" "C" 0 = .error .fuelOut from rfl] at h
      exact Except.noConfusion h
    | succ n =>
      rw [show shortest_route gAB1 "A" "C" (n + 1) = .error .panicked from rfl] at h
      exact Except.noConfusion h
  · rintro ⟨fuel, o, h⟩
    have h0 : shortest_route gZero "A" "C" fuel = .error .fuelOut := by
      rw [shortest_route,
        show next_stops gZero { distance := 0, stops := ["A"] } =
          some [{ distance := 0, stops := ["A", "B"] },
            { distance := 5, stops := ["A", "C"] }] from rfl]
      show Except.map _ (ssLoop gZero "C" fuel
        [{ distance := 0, stops := ["A", "B"] }, { distance := 5, stops := ["A", "C"] }]
        UMAX) = _
      rw [ssLoop_gZero_diverges fuel _ UMAX (by decide)
        (Or.inr ⟨["A", "B"], ["A", "C"], rfl, rfl, rfl⟩)]
      rfl
    rw [h0] at h
    exact Except.noConfusion h

end StationRouting
